import Mathlib

/-!
# Verification of the gear_on_rent / rmc_manpower_contractor arithmetic core

A shallow embedding, in Lean 4, of the numeric and date calculations of the
repository (quantity chunking, monthly-window partitioning, MGQ proration,
retention release scheduling, settlement gating, the telemetry webhook and
its token check, and the randomized batch generator), together with proofs
of the behavioural properties stated in the specification.

Numeric values that the Python source holds in IEEE floats are embedded as
exact rationals (`ℚ`); `round(x, 2)` is embedded as round-half-to-even at two
decimal places, which is Python's rounding mode.  Dates are embedded as
proleptic-Gregorian `(year, month, day)` triples with the same month-length
table as Python's `calendar.monthrange`.
-/

namespace GearSpec

/-! ## Rational rounding: Python's round(x, 2) -/

/-- Round half to even of a rational, yielding an integer (Python `round(x)`). -/
def rhe (q : ℚ) : ℤ :=
  if q - ⌊q⌋ < 1/2 then ⌊q⌋
  else if 1/2 < q - ⌊q⌋ then ⌊q⌋ + 1
  else if ⌊q⌋ % 2 = 0 then ⌊q⌋ else ⌊q⌋ + 1

/-- Python `round(x, 2)` over exact rationals. -/
def round2 (q : ℚ) : ℚ := (rhe (q * 100) : ℚ) / 100

/-- A rational that is a whole number of hundredths. -/
def IsCent (q : ℚ) : Prop := ∃ n : ℤ, q = (n : ℚ) / 100

theorem rhe_intCast (n : ℤ) : rhe (n : ℚ) = n := by
  simp [rhe]

theorem floor_le_rhe (q : ℚ) : ⌊q⌋ ≤ rhe q := by
  unfold rhe
  split_ifs <;> omega

theorem rhe_le_ceil (q : ℚ) : rhe q ≤ ⌈q⌉ := by
  have hfc : ⌊q⌋ ≤ ⌈q⌉ := Int.floor_le_ceil q
  by_cases hint : (⌊q⌋ : ℚ) = q
  · have hfr : q - (⌊q⌋ : ℚ) < 1/2 := by rw [hint]; norm_num
    unfold rhe
    rw [if_pos hfr]
    exact hfc
  · have hlt : (⌊q⌋ : ℚ) < q := lt_of_le_of_ne (Int.floor_le q) hint
    have hceil : ⌈q⌉ = ⌊q⌋ + 1 := by
      have h1 : ⌊q⌋ < ⌈q⌉ := by
        have hle := Int.le_ceil q
        have : (⌊q⌋ : ℚ) < (⌈q⌉ : ℚ) := lt_of_lt_of_le hlt hle
        exact_mod_cast this
      have h2 : ⌈q⌉ ≤ ⌊q⌋ + 1 := Int.ceil_le_floor_add_one q
      omega
    unfold rhe
    split_ifs <;> omega

theorem rhe_nonpos {q : ℚ} (h : q ≤ 0) : rhe q ≤ 0 := by
  have h1 : rhe q ≤ ⌈q⌉ := rhe_le_ceil q
  have h2 : ⌈q⌉ ≤ 0 := by
    rw [Int.ceil_le]
    exact_mod_cast h
  omega

theorem rhe_nonneg {q : ℚ} (h : 0 ≤ q) : 0 ≤ rhe q := by
  have h1 : ⌊q⌋ ≤ rhe q := floor_le_rhe q
  have h2 : (0 : ℤ) ≤ ⌊q⌋ := Int.floor_nonneg.mpr h
  omega

theorem round2_isCent (q : ℚ) : IsCent (round2 q) := ⟨rhe (q * 100), rfl⟩

theorem round2_eq_of_isCent {q : ℚ} (h : IsCent q) : round2 q = q := by
  obtain ⟨n, rfl⟩ := h
  have h100 : ((n : ℚ) / 100) * 100 = (n : ℚ) := by
    field_simp
  rw [round2, h100, rhe_intCast]

theorem isCent_add {a b : ℚ} (ha : IsCent a) (hb : IsCent b) : IsCent (a + b) := by
  obtain ⟨m, rfl⟩ := ha
  obtain ⟨n, rfl⟩ := hb
  exact ⟨m + n, by push_cast; ring⟩

theorem isCent_sub {a b : ℚ} (ha : IsCent a) (hb : IsCent b) : IsCent (a - b) := by
  obtain ⟨m, rfl⟩ := ha
  obtain ⟨n, rfl⟩ := hb
  exact ⟨m - n, by push_cast; ring⟩

theorem isCent_zero : IsCent (0 : ℚ) := ⟨0, by norm_num⟩

theorem round2_nonpos {q : ℚ} (h : q ≤ 0) : round2 q ≤ 0 := by
  unfold round2
  have h1 : rhe (q * 100) ≤ 0 := rhe_nonpos (by nlinarith)
  have h2 : ((rhe (q * 100) : ℚ)) ≤ 0 := by exact_mod_cast h1
  linarith

theorem round2_nonneg {q : ℚ} (h : 0 ≤ q) : 0 ≤ round2 q := by
  unfold round2
  have h1 : (0 : ℤ) ≤ rhe (q * 100) := rhe_nonneg (by nlinarith)
  have h2 : (0 : ℚ) ≤ (rhe (q * 100) : ℚ) := by exact_mod_cast h1
  linarith

/-! ## Quantity chunker: `MrpProduction._gear_split_quantity`

Source: `gear_on_rent/models/rmc_work_order.py`, lines 791-811. -/

/-- The chunk-filling loop of `_gear_split_quantity`: runs `parts` iterations,
each appending `round(chunk, 2)` where `chunk = max_chunk if remaining >
max_chunk else remaining`, and updating `remaining = round(remaining - chunk, 2)`. -/
def gearSplitLoop (maxChunk : ℚ) : ℕ → ℚ → List ℚ
  | 0, _ => []
  | n + 1, remaining =>
    let chunk := if maxChunk < remaining then maxChunk else remaining
    round2 chunk :: gearSplitLoop maxChunk n (round2 (remaining - chunk))

/-- `quantities[-1] = round(quantities[-1] + adjustment, 2)`. -/
def updateLast (adj : ℚ) : List ℚ → List ℚ
  | [] => []
  | [x] => [round2 (x + adj)]
  | x :: y :: ys => x :: updateLast adj (y :: ys)

/-- Embedding of `_gear_split_quantity(total_qty, max_chunk)`. -/
def gear_split_quantity (totalQty maxChunk : ℚ) : List ℚ :=
  if maxChunk ≤ 0 then [round2 totalQty]
  else
    let t := round2 totalQty
    if t ≤ 0 then [0]
    else
      let parts := (⌈t / maxChunk⌉).toNat
      let quantities := gearSplitLoop maxChunk parts t
      let adjustment := round2 (t - quantities.sum)
      let adjusted := if quantities = [] then quantities else updateLast adjustment quantities
      if adjusted = [] then [0] else adjusted

theorem gearSplitLoop_length (maxChunk : ℚ) (n : ℕ) (r : ℚ) :
    (gearSplitLoop maxChunk n r).length = n := by
  induction n generalizing r with
  | zero => rfl
  | succ k ih => simp [gearSplitLoop, ih]

theorem gearSplitLoop_isCent (maxChunk : ℚ) (n : ℕ) (r : ℚ) :
    ∀ x ∈ gearSplitLoop maxChunk n r, IsCent x := by
  induction n generalizing r with
  | zero => intro x hx; simp [gearSplitLoop] at hx
  | succ k ih =>
    intro x hx
    simp only [gearSplitLoop, List.mem_cons] at hx
    rcases hx with h | h
    · exact h ▸ round2_isCent _
    · exact ih _ x h

theorem sum_isCent {l : List ℚ} (h : ∀ x ∈ l, IsCent x) : IsCent l.sum := by
  induction l with
  | nil => simpa using isCent_zero
  | cons a l ih =>
    simp only [List.sum_cons]
    exact isCent_add (h a (by simp)) (ih fun x hx => h x (List.mem_cons_of_mem a hx))

theorem updateLast_length (adj : ℚ) (l : List ℚ) :
    (updateLast adj l).length = l.length := by
  induction l with
  | nil => rfl
  | cons a l ih =>
    cases l with
    | nil => rfl
    | cons b bs => simpa [updateLast] using ih

theorem isCent_natMul {a : ℚ} (ha : IsCent a) (n : ℕ) : IsCent (a * (n : ℚ)) := by
  obtain ⟨m, rfl⟩ := ha
  exact ⟨m * n, by push_cast; ring⟩

theorem gearSplitLoop_succ (mc : ℚ) (n : ℕ) (r : ℚ) :
    gearSplitLoop mc (n + 1) r =
      round2 (if mc < r then mc else r) ::
        gearSplitLoop mc n (round2 (r - if mc < r then mc else r)) := rfl

theorem gearSplitLoop_exact (mc : ℚ) (hmcc : IsCent mc) (hpos : 0 < mc) :
    ∀ (k : ℕ) (s : ℚ), IsCent s → 0 < s → s ≤ mc →
    gearSplitLoop mc (k + 1) (mc * (k : ℚ) + s) = List.replicate k mc ++ [s] := by
  intro k
  induction k with
  | zero =>
    intro s hs hspos hsle
    have harg : mc * ((0 : ℕ) : ℚ) + s = s := by push_cast; ring
    rw [harg]
    show gearSplitLoop mc (0 + 1) s = [] ++ [s]
    simp [gearSplitLoop, if_neg (not_lt.mpr hsle), round2_eq_of_isCent hs]
  | succ k ih =>
    intro s hs hspos hsle
    have hkc : IsCent (mc * ((k + 1 : ℕ) : ℚ) + s) :=
      isCent_add (isCent_natMul hmcc (k + 1)) hs
    have hgt : mc < mc * ((k + 1 : ℕ) : ℚ) + s := by
      push_cast
      nlinarith
    rw [gearSplitLoop_succ, if_pos hgt, round2_eq_of_isCent hmcc,
      round2_eq_of_isCent (isCent_sub hkc hmcc)]
    have harg : mc * ((k + 1 : ℕ) : ℚ) + s - mc = mc * ((k : ℕ) : ℚ) + s := by
      push_cast
      ring
    rw [harg, ih s hs hspos hsle]
    simp [List.replicate_succ]

theorem updateLast_sum (adj : ℚ) (l : List ℚ) (hne : l ≠ [])
    (hc : ∀ x ∈ l, IsCent x) (hadj : IsCent adj) :
    (updateLast adj l).sum = l.sum + adj := by
  induction l with
  | nil => exact absurd rfl hne
  | cons a l ih =>
    cases l with
    | nil =>
      have ha : IsCent a := hc a (by simp)
      have : round2 (a + adj) = a + adj := round2_eq_of_isCent (isCent_add ha hadj)
      simp [updateLast, this]
    | cons b bs =>
      have hrec := ih (by simp) (fun x hx => hc x (List.mem_cons_of_mem a hx))
      simp only [updateLast, List.sum_cons] at hrec ⊢
      rw [hrec]
      ring

theorem gear_split_quantity_main (t mc : ℚ) (hmc : 0 < mc) (hpos : 0 < round2 t) :
    gear_split_quantity t mc =
      updateLast
        (round2 (round2 t - (gearSplitLoop mc (⌈round2 t / mc⌉).toNat (round2 t)).sum))
        (gearSplitLoop mc (⌈round2 t / mc⌉).toNat (round2 t)) := by
  have hmc' : ¬ mc ≤ 0 := not_le.mpr hmc
  have hpos' : ¬ round2 t ≤ 0 := not_le.mpr hpos
  have hparts : 0 < (⌈round2 t / mc⌉).toNat := by
    have hq : 0 < round2 t / mc := div_pos hpos hmc
    have : 0 < ⌈round2 t / mc⌉ := Int.ceil_pos.mpr hq
    omega
  set parts := (⌈round2 t / mc⌉).toNat with hparts_def
  set quantities := gearSplitLoop mc parts (round2 t) with hq_def
  have hlen : quantities.length = parts := gearSplitLoop_length mc parts (round2 t)
  have hqne : quantities ≠ [] := by
    intro h
    rw [h] at hlen
    simp only [List.length_nil] at hlen
    omega
  have hne2 : updateLast (round2 (round2 t - quantities.sum)) quantities ≠ [] := by
    intro h
    have hl := updateLast_length (round2 (round2 t - quantities.sum)) quantities
    rw [h] at hl
    simp only [List.length_nil] at hl
    rw [hlen] at hl
    omega
  unfold gear_split_quantity
  rw [if_neg hmc', if_neg hpos']
  simp only [← hparts_def, ← hq_def, if_neg hqne, if_neg hne2]

theorem gear_split_quantity_spec (t mc : ℚ) (hmc : 0 < mc) (hpos : 0 < round2 t) :
    (gear_split_quantity t mc).sum = round2 t ∧
    (gear_split_quantity t mc).length = (⌈round2 t / mc⌉).toNat := by
  have hparts : 0 < (⌈round2 t / mc⌉).toNat := by
    have hq : 0 < round2 t / mc := div_pos hpos hmc
    have : 0 < ⌈round2 t / mc⌉ := Int.ceil_pos.mpr hq
    omega
  set parts := (⌈round2 t / mc⌉).toNat with hparts_def
  set quantities := gearSplitLoop mc parts (round2 t) with hq_def
  have hlen : quantities.length = parts := gearSplitLoop_length mc parts (round2 t)
  have hqne : quantities ≠ [] := by
    intro h
    rw [h] at hlen
    simp only [List.length_nil] at hlen
    omega
  have hcents : ∀ x ∈ quantities, IsCent x := gearSplitLoop_isCent mc parts (round2 t)
  have hsumc : IsCent quantities.sum := sum_isCent hcents
  have htc : IsCent (round2 t) := round2_isCent t
  have hadjc : IsCent (round2 (round2 t - quantities.sum)) := round2_isCent _
  have hadj_eq : round2 (round2 t - quantities.sum) = round2 t - quantities.sum :=
    round2_eq_of_isCent (isCent_sub htc hsumc)
  have hres := gear_split_quantity_main t mc hmc hpos
  rw [← hparts_def, ← hq_def] at hres
  rw [hres]
  constructor
  · rw [updateLast_sum _ _ hqne hcents hadjc, hadj_eq]
    ring
  · rw [updateLast_length, hlen]

/-- C7: `_gear_split_quantity` always returns a non-empty list; for
`max_chunk ≤ 0` it returns `[round(total, 2)]`, and for `max_chunk > 0` with a
non-positive total it returns `[0.0]`. -/
theorem gear_split_quantity_degenerate_cases :
    ∀ t mc : ℚ, gear_split_quantity t mc ≠ [] ∧
      (mc ≤ 0 → gear_split_quantity t mc = [round2 t]) ∧
      (0 < mc → t ≤ 0 → gear_split_quantity t mc = [0]) := by
  intro t mc
  refine ⟨?_, ?_, ?_⟩
  · unfold gear_split_quantity
    by_cases h1 : mc ≤ 0
    · rw [if_pos h1]
      simp
    · rw [if_neg h1]
      by_cases h2 : round2 t ≤ 0
      · simp only [if_pos h2]
        simp
      · simp only [if_neg h2]
        split
        · simp
        · split
          · simp
          · assumption
  · intro h
    unfold gear_split_quantity
    rw [if_pos h]
  · intro hmc ht
    have h1 : ¬ mc ≤ 0 := not_le.mpr hmc
    have h2 : round2 t ≤ 0 := round2_nonpos ht
    unfold gear_split_quantity
    rw [if_neg h1]
    simp only [if_pos h2]

theorem gear_split_quantity_degenerate_cases_witness :
    gear_split_quantity 5 (-1) = [round2 5] ∧ gear_split_quantity (-3) 2 = [0] :=
  ⟨(gear_split_quantity_degenerate_cases 5 (-1)).2.1 (by norm_num),
   (gear_split_quantity_degenerate_cases (-3) 2).2.2 (by norm_num) (by norm_num)⟩

theorem updateLast_cons (adj a : ℚ) {rest : List ℚ} (h : rest ≠ []) :
    updateLast adj (a :: rest) = a :: updateLast adj rest := by
  cases rest with
  | nil => exact absurd rfl h
  | cons b bs => rfl

theorem updateLast_append_singleton (adj x : ℚ) (l : List ℚ) :
    updateLast adj (l ++ [x]) = l ++ [round2 (x + adj)] := by
  induction l with
  | nil => rfl
  | cons a l ih =>
    have hne : l ++ [x] ≠ [] := by simp
    simp only [List.cons_append, updateLast_cons adj a hne, ih]

theorem round2_natCast (n : ℕ) : round2 (n : ℚ) = n :=
  round2_eq_of_isCent ⟨(n : ℤ) * 100, by push_cast; field_simp⟩

/-- Evaluation of the main example: `split(100, 7)`. -/
theorem gear_split_eval_100_7 :
    gear_split_quantity 100 7 = List.replicate 14 7 ++ [2] := by
  have hr100 : round2 (100 : ℚ) = 100 := by
    have := round2_natCast 100
    norm_num at this
    exact this
  have hceil : (⌈round2 (100 : ℚ) / 7⌉).toNat = 15 := by
    rw [hr100, show ⌈(100 : ℚ) / 7⌉ = 15 by norm_num [Int.ceil_eq_iff]]
    rfl
  have hloop : gearSplitLoop 7 15 (round2 100) = List.replicate 14 7 ++ [2] := by
    have h := gearSplitLoop_exact 7 ⟨700, by norm_num⟩ (by norm_num) 14 2
      ⟨200, by norm_num⟩ (by norm_num) (by norm_num)
    rw [show (7 : ℚ) * ((14 : ℕ) : ℚ) + 2 = 100 by norm_num] at h
    rw [hr100]
    exact h
  have hsum : (List.replicate 14 (7 : ℚ) ++ [2]).sum = 100 := by
    simp [List.sum_replicate, nsmul_eq_mul]
    norm_num
  have hmain := gear_split_quantity_main 100 7 (by norm_num) (by rw [hr100]; norm_num)
  rw [hceil, hloop, hsum, hr100] at hmain
  rw [hmain, show (100 : ℚ) - 100 = 0 by norm_num,
    round2_eq_of_isCent ⟨0, by norm_num⟩, updateLast_append_singleton,
    show (2 : ℚ) + 0 = 2 by norm_num]
  rw [round2_eq_of_isCent ⟨200, by norm_num⟩]

/-- C1 (counterexample): with `total = 7.004` and `max_chunk = 7`, the code first
rounds the total to `7.0` and returns a single chunk, while
`ceil(total / max_chunk) = 2`; so the chunk count does not equal
`ceil(total / max_chunk)` for every positive total. -/
theorem gear_split_quantity_length_counterexample :
    (gear_split_quantity (7004/1000) 7).length ≠ (⌈((7004/1000 : ℚ) / 7)⌉).toNat := by
  have hr : round2 ((7004 : ℚ) / 1000) = 7 := by
    have hf : ⌊(7004 : ℚ) / 1000 * 100⌋ = 700 := by
      rw [show (7004 : ℚ) / 1000 * 100 = 7004 / 10 by norm_num]
      norm_num [Int.floor_eq_iff]
    unfold round2 rhe
    rw [hf]
    norm_num
  have hceil : (⌈round2 ((7004 : ℚ) / 1000) / 7⌉).toNat = 1 := by
    rw [hr, show ⌈(7 : ℚ) / 7⌉ = 1 by norm_num]
    rfl
  have hloop : gearSplitLoop 7 1 (round2 ((7004 : ℚ) / 1000)) = [7] := by
    have h := gearSplitLoop_exact 7 ⟨700, by norm_num⟩ (by norm_num) 0 7
      ⟨700, by norm_num⟩ (by norm_num) (by norm_num)
    rw [show (7 : ℚ) * ((0 : ℕ) : ℚ) + 7 = 7 by norm_num] at h
    rw [hr]
    exact h
  have hmain := gear_split_quantity_main (7004/1000) 7 (by norm_num) (by rw [hr]; norm_num)
  rw [hceil, hloop, hr] at hmain
  have hadj : round2 ((7 : ℚ) - List.sum [7]) = 0 := by
    rw [show (7 : ℚ) - List.sum [7] = 0 by simp]
    exact round2_eq_of_isCent ⟨0, by norm_num⟩
  rw [hadj] at hmain
  have hupd : updateLast 0 [(7 : ℚ)] = [7] := by
    show [round2 (7 + 0)] = [7]
    rw [show (7 : ℚ) + 0 = 7 by norm_num, round2_eq_of_isCent ⟨700, by norm_num⟩]
  rw [hupd] at hmain
  rw [hmain]
  rw [show ⌈(7004 : ℚ) / 1000 / 7⌉ = 2 by norm_num [Int.ceil_eq_iff]]
  simp

/-- C1 (amended): for `max_chunk > 0` and `total > 0` the chunks sum exactly to
`round(total, 2)`, and when `round(total, 2) > 0` the chunk count equals
`ceil(round(total, 2) / max_chunk)` (the code rounds the total to two decimals
before computing the chunk count, so for totals such as 7.004 the claimed count
`ceil(total / max_chunk)` is off by one); in particular `split(100, 7)` returns
14 chunks of 7 followed by one final chunk of 2, summing to 100. -/
theorem gear_split_quantity_sum_length :
    (∀ t mc : ℚ, 0 < t → 0 < mc →
      (gear_split_quantity t mc).sum = round2 t ∧
      (0 < round2 t → (gear_split_quantity t mc).length = (⌈round2 t / mc⌉).toNat)) ∧
    gear_split_quantity 100 7 = List.replicate 14 7 ++ [2] := by
  constructor
  · intro t mc ht hmc
    rcases lt_or_eq_of_le (round2_nonneg (le_of_lt ht)) with hpos | hzero
    · exact ⟨(gear_split_quantity_spec t mc hmc hpos).1,
        fun _ => (gear_split_quantity_spec t mc hmc hpos).2⟩
    · have hz : round2 t ≤ 0 := le_of_eq hzero.symm
      have hres : gear_split_quantity t mc = [0] := by
        unfold gear_split_quantity
        rw [if_neg (not_le.mpr hmc)]
        simp only [if_pos hz]
      refine ⟨?_, fun hc => absurd hzero (ne_of_gt hc).symm⟩
      rw [hres, ← hzero]
      simp
  · exact gear_split_eval_100_7

theorem gear_split_quantity_sum_length_witness :
    (gear_split_quantity 100 7).sum = round2 100 ∧
    (gear_split_quantity 100 7).length = (⌈round2 (100 : ℚ) / 7⌉).toNat := by
  have h := gear_split_quantity_sum_length.1 100 7 (by norm_num) (by norm_num)
  refine ⟨h.1, h.2 ?_⟩
  rw [round2_eq_of_isCent ⟨10000, by norm_num⟩]
  norm_num

/-! ## Calendar: proleptic Gregorian dates as used by Python `datetime.date`,
`calendar.monthrange` and `dateutil.relativedelta`. -/

/-- `calendar.isleap`. -/
def isLeap (y : ℕ) : Bool := (y % 4 == 0 && y % 100 != 0) || y % 400 == 0

/-- `calendar.monthrange(y, m)[1]`: number of days of month `m` of year `y`. -/
def monthLen (y : ℕ) : ℕ → ℕ
  | 1 => 31
  | 2 => if isLeap y then 29 else 28
  | 3 => 31
  | 4 => 30
  | 5 => 31
  | 6 => 30
  | 7 => 31
  | 8 => 31
  | 9 => 30
  | 10 => 31
  | 11 => 30
  | 12 => 31
  | _ => 0

/-- A calendar date (year, month, day), with month/day 1-based as in Python. -/
structure Date where
  y : ℕ
  m : ℕ
  d : ℕ
deriving DecidableEq, Repr

/-- The date is a real calendar date. -/
def Date.IsValid (a : Date) : Prop :=
  1 ≤ a.m ∧ a.m ≤ 12 ∧ 1 ≤ a.d ∧ a.d ≤ monthLen a.y a.m

instance (a : Date) : Decidable a.IsValid := by
  unfold Date.IsValid
  infer_instance

/-- Strict chronological (lexicographic) order on dates. -/
def Date.ltP (a b : Date) : Prop :=
  a.y < b.y ∨ (a.y = b.y ∧ (a.m < b.m ∨ (a.m = b.m ∧ a.d < b.d)))

/-- Chronological order on dates. -/
def Date.leP (a b : Date) : Prop :=
  a.y < b.y ∨ (a.y = b.y ∧ (a.m < b.m ∨ (a.m = b.m ∧ a.d ≤ b.d)))

instance (a b : Date) : Decidable (Date.ltP a b) := by
  unfold Date.ltP
  infer_instance

instance (a b : Date) : Decidable (Date.leP a b) := by
  unfold Date.leP
  infer_instance

def yearDays (y : ℕ) : ℕ := if isLeap y then 366 else 365

/-- Number of leap years strictly below `y` (year 0 counts as leap). -/
def leapsBefore (y : ℕ) : ℕ := (y + 3) / 4 - (y + 99) / 100 + (y + 399) / 400

/-- Days in all years strictly below `y`. -/
def daysBeforeYear (y : ℕ) : ℕ := 365 * y + leapsBefore y

/-- Days in months of year `y` strictly before month `m`. -/
def cumDays (y : ℕ) : ℕ → ℕ
  | 0 => 0
  | 1 => 0
  | m + 2 => cumDays y (m + 1) + monthLen y (m + 1)

/-- Day ordinal of a date (0 for year 0, Jan 1). -/
def toOrd (a : Date) : ℕ := daysBeforeYear a.y + cumDays a.y a.m + (a.d - 1)

/-- The calendar successor of a date. -/
def nextDay (a : Date) : Date :=
  if a.d < monthLen a.y a.m then ⟨a.y, a.m, a.d + 1⟩
  else if a.m < 12 then ⟨a.y, a.m + 1, 1⟩
  else ⟨a.y + 1, 1, 1⟩

theorem daysBeforeYear_succ (y : ℕ) :
    daysBeforeYear (y + 1) = daysBeforeYear y + yearDays y := by
  unfold daysBeforeYear leapsBefore yearDays isLeap
  split_ifs with h
  · simp only [Bool.or_eq_true, Bool.and_eq_true, beq_iff_eq, bne_iff_ne, ne_eq] at h
    omega
  · simp only [Bool.or_eq_true, Bool.and_eq_true, beq_iff_eq, bne_iff_ne, ne_eq] at h
    push_neg at h
    omega

theorem daysBeforeYear_mono {y y1 : ℕ} (h : y ≤ y1) :
    daysBeforeYear y ≤ daysBeforeYear y1 := by
  unfold daysBeforeYear leapsBefore
  omega

theorem cumDays_succ (y m : ℕ) (hm : 1 ≤ m) :
    cumDays y (m + 1) = cumDays y m + monthLen y m := by
  obtain ⟨k, rfl⟩ : ∃ k, m = k + 1 := ⟨m - 1, by omega⟩
  rfl

theorem cumDays_13 (y : ℕ) : cumDays y 13 = yearDays y := by
  show cumDays y 13 = _
  simp only [cumDays, monthLen, yearDays]
  split_ifs <;> norm_num

theorem cumDays_step_le (y m : ℕ) : cumDays y m ≤ cumDays y (m + 1) := by
  cases m with
  | zero => simp [cumDays]
  | succ k => rw [cumDays_succ y (k + 1) (by omega)]; omega

theorem cumDays_mono (y : ℕ) {m m1 : ℕ} (h : m ≤ m1) :
    cumDays y m ≤ cumDays y m1 := by
  induction m1 with
  | zero =>
    have hm : m = 0 := by omega
    rw [hm]
  | succ k ih =>
    rcases Nat.lt_or_ge m (k + 1) with hlt | hge
    · exact le_trans (ih (by omega)) (cumDays_step_le y k)
    · have : m = k + 1 := by omega
      rw [this]

theorem monthLen_pos (y : ℕ) {m : ℕ} (h1 : 1 ≤ m) (h2 : m ≤ 12) :
    1 ≤ monthLen y m := by
  interval_cases m <;> simp [monthLen] <;> split_ifs <;> norm_num

theorem cumDays_add_d_le (y : ℕ) {m d : ℕ} (h1 : 1 ≤ m) (h2 : m ≤ 12)
    (hd : d ≤ monthLen y m) : cumDays y m + d ≤ yearDays y := by
  have h3 : cumDays y m + d ≤ cumDays y (m + 1) := by
    rw [cumDays_succ y m h1]
    omega
  have h4 : cumDays y (m + 1) ≤ cumDays y 13 := cumDays_mono y (by omega)
  rw [cumDays_13] at h4
  omega

theorem toOrd_lt_of_ltP {a b : Date} (ha : a.IsValid) (hb : b.IsValid)
    (h : Date.ltP a b) : toOrd a < toOrd b := by
  obtain ⟨ham1, ham2, had1, had2⟩ := ha
  obtain ⟨hbm1, hbm2, hbd1, hbd2⟩ := hb
  unfold toOrd
  rcases h with hy | ⟨hy, hm | ⟨hm, hd⟩⟩
  · have h1 : cumDays a.y a.m + a.d ≤ yearDays a.y := cumDays_add_d_le a.y ham1 ham2 had2
    have h2 : daysBeforeYear a.y + yearDays a.y = daysBeforeYear (a.y + 1) :=
      (daysBeforeYear_succ a.y).symm
    have h3 : daysBeforeYear (a.y + 1) ≤ daysBeforeYear b.y := daysBeforeYear_mono hy
    omega
  · rw [hy]
    have h1 : cumDays b.y a.m + a.d ≤ cumDays b.y (a.m + 1) := by
      rw [cumDays_succ b.y a.m ham1]
      rw [hy] at had2
      omega
    have h2 : cumDays b.y (a.m + 1) ≤ cumDays b.y b.m := cumDays_mono b.y (by omega)
    omega
  · rw [hy, hm]
    omega

theorem Date.ltP_trichotomy (a b : Date) :
    Date.ltP a b ∨ a = b ∨ Date.ltP b a := by
  rcases a with ⟨a1, a2, a3⟩
  rcases b with ⟨b1, b2, b3⟩
  simp only [Date.ltP, Date.mk.injEq]
  omega

theorem Date.leP_iff_ltP_or_eq {a b : Date} :
    Date.leP a b ↔ Date.ltP a b ∨ a = b := by
  rcases a with ⟨a1, a2, a3⟩
  rcases b with ⟨b1, b2, b3⟩
  simp only [Date.leP, Date.ltP, Date.mk.injEq]
  omega

theorem Date.ltP_asymm {a b : Date} (h : Date.ltP a b) : ¬ Date.ltP b a := by
  rcases a with ⟨a1, a2, a3⟩
  rcases b with ⟨b1, b2, b3⟩
  simp only [Date.ltP] at h ⊢
  omega

theorem Date.ltP_irrefl (a : Date) : ¬ Date.ltP a a := by
  rcases a with ⟨a1, a2, a3⟩
  simp only [Date.ltP]
  omega

theorem toOrd_le_of_leP {a b : Date} (ha : a.IsValid) (hb : b.IsValid)
    (h : Date.leP a b) : toOrd a ≤ toOrd b := by
  rcases Date.leP_iff_ltP_or_eq.mp h with hlt | rfl
  · exact le_of_lt (toOrd_lt_of_ltP ha hb hlt)
  · exact le_refl _

theorem ltP_of_toOrd_lt {a b : Date} (ha : a.IsValid) (hb : b.IsValid)
    (h : toOrd a < toOrd b) : Date.ltP a b := by
  rcases Date.ltP_trichotomy a b with h1 | rfl | h1
  · exact h1
  · omega
  · exact absurd (toOrd_lt_of_ltP hb ha h1) (by omega)

theorem leP_of_toOrd_le {a b : Date} (ha : a.IsValid) (hb : b.IsValid)
    (h : toOrd a ≤ toOrd b) : Date.leP a b := by
  rcases Date.ltP_trichotomy a b with h1 | rfl | h1
  · exact Date.leP_iff_ltP_or_eq.mpr (Or.inl h1)
  · exact Date.leP_iff_ltP_or_eq.mpr (Or.inr rfl)
  · exact absurd (toOrd_lt_of_ltP hb ha h1) (by omega)

theorem nextDay_isValid {a : Date} (ha : a.IsValid) : (nextDay a).IsValid := by
  obtain ⟨h1, h2, h3, h4⟩ := ha
  unfold nextDay
  split_ifs with hd hm <;> unfold Date.IsValid <;> dsimp only
  · exact ⟨h1, h2, by omega, by omega⟩
  · exact ⟨by omega, by omega, by omega, monthLen_pos a.y (by omega) (by omega)⟩
  · exact ⟨by omega, by omega, by omega, monthLen_pos (a.y + 1) (by omega) (by omega)⟩

theorem toOrd_nextDay {a : Date} (ha : a.IsValid) :
    toOrd (nextDay a) = toOrd a + 1 := by
  obtain ⟨h1, h2, h3, h4⟩ := ha
  unfold nextDay
  split_ifs with hd hm <;> unfold toOrd <;> dsimp only
  · omega
  · rw [cumDays_succ a.y a.m h1]
    omega
  · have hm12 : a.m = 12 := by omega
    rw [daysBeforeYear_succ a.y]
    have hc13 : cumDays a.y 13 = yearDays a.y := cumDays_13 a.y
    rw [cumDays_succ a.y 12 (by omega)] at hc13
    rw [hm12] at h4 hd
    rw [hm12]
    have hcum1 : cumDays (a.y + 1) 1 = 0 := rfl
    rw [hcum1]
    omega

theorem ltP_nextDay {a : Date} (ha : a.IsValid) : Date.ltP a (nextDay a) := by
  obtain ⟨h1, h2, h3, h4⟩ := ha
  unfold nextDay
  split_ifs with hd hm <;> unfold Date.ltP <;> dsimp only <;> omega

theorem leP_nextDay_of_ltP {a b : Date} (ha : a.IsValid) (hb : b.IsValid)
    (h : Date.ltP a b) : Date.leP (nextDay a) b := by
  have h1 : toOrd a < toOrd b := toOrd_lt_of_ltP ha hb h
  have h2 : toOrd (nextDay a) = toOrd a + 1 := toOrd_nextDay ha
  exact leP_of_toOrd_le (nextDay_isValid ha) hb (by omega)

/-! ## Local datetimes (date plus seconds within the day)

Timezone conversion (`pytz`) is platform glue and is modelled as the identity:
the partitioner below receives the cooling-end and contract-start instants
already expressed in local time, exactly as `_gear_iter_monthly_windows`
receives `cooling_end_local` and `contract_start_local`. -/

structure DateTime where
  date : Date
  sec : ℕ
deriving DecidableEq, Repr

def DateTime.ltP (a b : DateTime) : Prop :=
  Date.ltP a.date b.date ∨ (a.date = b.date ∧ a.sec < b.sec)

def DateTime.leP (a b : DateTime) : Prop :=
  Date.ltP a.date b.date ∨ (a.date = b.date ∧ a.sec ≤ b.sec)

instance (a b : DateTime) : Decidable (DateTime.ltP a b) := by
  unfold DateTime.ltP
  infer_instance

instance (a b : DateTime) : Decidable (DateTime.leP a b) := by
  unfold DateTime.leP
  infer_instance

/-- `_gear_localize_day(day, is_end)`: local midnight, or local 23:59:59. -/
def localizeDay (d : Date) (isEnd : Bool) : DateTime :=
  ⟨d, if isEnd then 86399 else 0⟩

/-- Python `(b - a).days` for dates. -/
def daysBetween (a b : Date) : ℤ := (toOrd b : ℤ) - (toOrd a : ℤ)

/-- Python `(e - s).total_seconds()` for datetimes. -/
def secondsBetween (s e : DateTime) : ℤ :=
  daysBetween s.date e.date * 86400 + ((e.sec : ℤ) - (s.sec : ℤ))

/-- The local `compute_hours(start_dt, end_dt)` closure of
`_gear_iter_monthly_windows` (both datetimes present). -/
def computeHours (s e : DateTime) : ℚ :=
  if DateTime.ltP e s then 0
  else max (((secondsBetween s e : ℚ) + 1) / 3600) 0

/-- Python `min(a, b)` (first argument wins ties). -/
def pyMinDT (a b : DateTime) : DateTime := if DateTime.ltP b a then b else a

/-- Python `max(a, b)` (first argument wins ties). -/
def pyMaxDT (a b : DateTime) : DateTime := if DateTime.ltP a b then b else a

/-- Python `min(a, b)` on dates. -/
def pyMinDate (a b : Date) : Date := if Date.ltP b a then b else a

/-- `cooling_end_local + timedelta(seconds=1)`. -/
def dtAddOneSec (t : DateTime) : DateTime :=
  if t.sec + 1 ≤ 86399 then ⟨t.date, t.sec + 1⟩ else ⟨nextDay t.date, 0⟩

/-! ## Window partitioner: `SaleOrder._gear_iter_monthly_windows`

Source: `gear_on_rent/models/sale_order.py`, lines 306-406. -/

/-- One window dictionary produced by `_gear_iter_monthly_windows`. -/
structure Window where
  date_start : Date
  date_end : Date
  window_start : DateTime
  window_end : DateTime
  is_cooling : Bool
  month_days : ℕ
  span_days : ℤ
  month_hours : ℚ
  window_hours : ℚ
deriving DecidableEq, Repr

/-- `start_local` of the loop body: local midnight of the window start,
lowered to the contract-start instant when that instant falls on the same
day (`min(midnight_start_local, contract_start_local)`). -/
def sliceStartLocal (contractStartLocal : Option DateTime) (windowStart : Date) : DateTime :=
  match contractStartLocal with
  | some v => if v.date = windowStart then pyMinDT (localizeDay windowStart false) v
              else localizeDay windowStart false
  | none => localizeDay windowStart false

/-- One iteration of the `while current <= limit` loop body of
`_gear_iter_monthly_windows` for the month starting at `cur` (a first-of-month
date): clips the month to the contract span, then either skips, splits at the
cooling boundary, or emits the single month window. -/
def monthSliceWindows (cooling contractStartLocal : Option DateTime)
    (startDate endDate cur : Date) : List Window :=
  let monthDays := monthLen cur.y cur.m
  let monthStart := cur
  let monthEnd : Date := ⟨cur.y, cur.m, monthDays⟩
  let windowStart := if Date.leP startDate monthStart then monthStart else startDate
  let windowEnd := if Date.leP monthEnd endDate then monthEnd else endDate
  if Date.ltP windowEnd windowStart then []
  else
    let monthHours := computeHours (localizeDay monthStart false) (localizeDay monthEnd true)
    let startLocal := sliceStartLocal contractStartLocal windowStart
    let endLocal := localizeDay windowEnd true
    let defaultSpanDays := daysBetween windowStart windowEnd + 1
    match cooling with
    | some c =>
      if DateTime.leP startLocal c ∧ DateTime.leP c endLocal then
        let firstEndLocal := pyMinDT c endLocal
        let firstEndDate := pyMinDate windowEnd firstEndLocal.date
        let firstWindows :=
          if Date.leP windowStart firstEndDate then
            [⟨windowStart, firstEndDate, startLocal, firstEndLocal, true, monthDays,
              daysBetween windowStart firstEndDate + 1, monthHours,
              computeHours startLocal firstEndLocal⟩]
          else []
        let afterCoolingDate := nextDay firstEndDate
        let secondWindows :=
          if Date.leP afterCoolingDate windowEnd then
            let secondStartLocal := pyMaxDT (dtAddOneSec c) (localizeDay afterCoolingDate false)
            let secondSpanDays := daysBetween afterCoolingDate windowEnd + 1
            if 0 < secondSpanDays then
              [⟨afterCoolingDate, windowEnd, secondStartLocal, endLocal, false, monthDays,
                secondSpanDays, monthHours, computeHours secondStartLocal endLocal⟩]
            else []
          else []
        firstWindows ++ secondWindows
      else
        [⟨windowStart, windowEnd, startLocal, endLocal,
          decide (DateTime.leP endLocal c), monthDays, defaultSpanDays, monthHours,
          computeHours startLocal endLocal⟩]
    | none =>
      [⟨windowStart, windowEnd, startLocal, endLocal, false, monthDays, defaultSpanDays,
        monthHours, computeHours startLocal endLocal⟩]

/-- `current.replace(day=1)`. -/
def monthFirst (a : Date) : Date := ⟨a.y, a.m, 1⟩

/-- `(current + relativedelta(months=1)).replace(day=1)`. -/
def nextMonthFirst (a : Date) : Date :=
  if a.m < 12 then ⟨a.y, a.m + 1, 1⟩ else ⟨a.y + 1, 1, 1⟩

/-- Linear month counter, used to size the loop fuel. -/
def monthIndex (a : Date) : ℕ := a.y * 12 + (a.m - 1)

/-- The `while current <= limit` loop of `_gear_iter_monthly_windows`, with
fuel counting the months that remain. -/
def iterAux (cooling cs : Option DateTime) (s e : Date) : ℕ → Date → List Window
  | 0, _ => []
  | fuel + 1, cur =>
    if Date.leP cur e then
      monthSliceWindows cooling cs s e cur ++ iterAux cooling cs s e fuel (nextMonthFirst cur)
    else []

/-- Embedding of `_gear_iter_monthly_windows(start_date, end_date)` on a
contract whose cooling end (local) is `cooling` and whose contract start
datetime (local) is `cs`. -/
def gear_iter_monthly_windows (cooling cs : Option DateTime) (s e : Date) : List Window :=
  iterAux cooling cs s e (monthIndex e + 1 - monthIndex (monthFirst s)) (monthFirst s)

/-! ## Order helper lemmas -/

theorem Date.leP_refl (a : Date) : Date.leP a a := by
  unfold Date.leP
  omega

theorem Date.leP_of_ltP {a b : Date} (h : Date.ltP a b) : Date.leP a b := by
  unfold Date.ltP at h
  unfold Date.leP
  omega

theorem Date.leP_trans {a b c : Date} (h1 : Date.leP a b) (h2 : Date.leP b c) :
    Date.leP a c := by
  unfold Date.leP at *
  omega

theorem Date.not_ltP_of_leP {a b : Date} (h : Date.leP a b) : ¬ Date.ltP b a := by
  unfold Date.leP at h
  unfold Date.ltP
  omega

theorem Date.ltP_total {a b : Date} (h : ¬ Date.leP a b) : Date.ltP b a := by
  unfold Date.leP at h
  unfold Date.ltP
  omega

theorem dtNotLtOfLe {a b : DateTime} (h : DateTime.leP a b) :
    ¬ DateTime.ltP b a := by
  rcases a with ⟨⟨a1, a2, a3⟩, sa⟩
  rcases b with ⟨⟨b1, b2, b3⟩, sb⟩
  simp only [DateTime.leP, DateTime.ltP, Date.ltP, Date.mk.injEq] at h ⊢
  omega

theorem dtLe_midnight_imp {d : Date} {c : DateTime}
    (h : DateTime.leP ⟨d, 0⟩ c) : Date.leP d c.date := by
  rcases c with ⟨cd, cs⟩
  rcases h with h | ⟨h, _⟩
  · exact Date.leP_of_ltP h
  · rw [← h]
    exact Date.leP_refl d

theorem dtLe_endOfDay_imp {d : Date} {c : DateTime}
    (h : DateTime.leP c ⟨d, 86399⟩) : Date.leP c.date d := by
  rcases h with h | ⟨h, _⟩
  · exact Date.leP_of_ltP h
  · rw [h]
    exact Date.leP_refl d

theorem pyMinDT_of_leP {a b : DateTime} (h : DateTime.leP a b) : pyMinDT a b = a := by
  unfold pyMinDT
  rw [if_neg (dtNotLtOfLe h)]

/-- Inside `_gear_iter_monthly_windows` the computed `start_local` is always
local midnight of the clipped window start: the `min` with the contract start
can only fire when the contract start lies on that same day, hence at or after
midnight. -/
theorem startLocal_eq_midnight (cs : Option DateTime) (ws : Date) :
    sliceStartLocal cs ws = localizeDay ws false := by
  unfold sliceStartLocal
  cases cs with
  | none => rfl
  | some v =>
    simp only
    split_ifs with h
    · unfold pyMinDT
      rw [if_neg]
      intro hlt
      rcases hlt with hlt | ⟨_, hlt⟩
      · rw [h] at hlt
        exact Date.ltP_irrefl ws hlt
      · simp [localizeDay] at hlt
    · rfl

/-! ## Exact interval covering by a window chain -/

/-- The windows cover the date interval `[lo, hi]` exactly and in order:
the first window starts at `lo`, each later window starts the day after the
previous one ends, and the last ends at `hi`. -/
def coversExactly : Date → Date → List Window → Prop
  | _, _, [] => False
  | lo, hi, [w] => w.date_start = lo ∧ w.date_end = hi
  | lo, hi, w :: w2 :: rest =>
    w.date_start = lo ∧ coversExactly (nextDay w.date_end) hi (w2 :: rest)

/-- Well-formed window: both dates are real calendar dates in order. -/
def WinOk (w : Window) : Prop :=
  w.date_start.IsValid ∧ w.date_end.IsValid ∧ Date.leP w.date_start w.date_end

theorem coversExactly_ne_nil {lo hi : Date} {ws : List Window}
    (h : coversExactly lo hi ws) : ws ≠ [] := by
  intro hnil
  rw [hnil] at h
  exact h

theorem coversExactly_append {lo mid hi : Date} {ws1 ws2 : List Window}
    (h1 : coversExactly lo mid ws1) (h2 : coversExactly (nextDay mid) hi ws2) :
    coversExactly lo hi (ws1 ++ ws2) := by
  induction ws1 generalizing lo with
  | nil => exact h1.elim
  | cons w tail ih =>
    cases tail with
    | nil =>
      obtain ⟨hds, hde⟩ := h1
      rcases hw2 : ws2 with _ | ⟨v, rest⟩
      · rw [hw2] at h2
        exact h2.elim
      · rw [hw2] at h2
        show w.date_start = lo ∧ coversExactly (nextDay w.date_end) hi (v :: rest)
        exact ⟨hds, by rw [hde]; exact h2⟩
    | cons w2 rest =>
      obtain ⟨hds, htail⟩ := h1
      exact ⟨hds, ih htail⟩

theorem coversExactly_props {ws : List Window} :
    ∀ {lo hi : Date}, coversExactly lo hi ws → (∀ w ∈ ws, WinOk w) →
    (∃ w0 rest, ws = w0 :: rest ∧ w0.date_start = lo) ∧
    (∃ wl, ws.getLast? = some wl ∧ wl.date_end = hi) ∧
    List.Chain' (fun w1 w2 => w2.date_start = nextDay w1.date_end) ws ∧
    (∀ w ∈ ws, toOrd lo ≤ toOrd w.date_start ∧ toOrd w.date_end ≤ toOrd hi) ∧
    (∀ n : ℕ, (toOrd lo ≤ n ∧ n ≤ toOrd hi) ↔
      ∃ w ∈ ws, toOrd w.date_start ≤ n ∧ n ≤ toOrd w.date_end) := by
  induction ws with
  | nil => intro lo hi h _; exact h.elim
  | cons w tail ih =>
    intro lo hi hcov hok
    cases tail with
    | nil =>
      obtain ⟨hds, hde⟩ := hcov
      refine ⟨⟨w, [], rfl, hds⟩, ⟨w, rfl, hde⟩, List.chain'_singleton w, ?_, ?_⟩
      · intro v hv
        rw [List.mem_singleton] at hv
        rw [hv, hds, hde]
        exact ⟨le_refl _, le_refl _⟩
      · intro n
        constructor
        · intro hn
          exact ⟨w, List.mem_singleton_self w, by rw [hds]; exact hn.1,
            by rw [hde]; exact hn.2⟩
        · rintro ⟨v, hv, h1, h2⟩
          rw [List.mem_singleton] at hv
          rw [hv, hds] at h1
          rw [hv, hde] at h2
          exact ⟨h1, h2⟩
    | cons w2 rest =>
      obtain ⟨hds, htail⟩ := hcov
      have hokw : WinOk w := hok w (by simp)
      have hoktail : ∀ v ∈ w2 :: rest, WinOk v := fun v hv =>
        hok v (List.mem_cons_of_mem w hv)
      obtain ⟨⟨t0, trest, hteq, htds⟩, ⟨tl, htl, htlde⟩, hchain, hbounds, hcover⟩ :=
        ih htail hoktail
      have hdevalid : w.date_end.IsValid := hokw.2.1
      have hnext : toOrd (nextDay w.date_end) = toOrd w.date_end + 1 :=
        toOrd_nextDay hdevalid
      have hlole : toOrd lo ≤ toOrd w.date_end := by
        have := hokw.2.2
        rw [hds] at this
        exact toOrd_le_of_leP (hds ▸ hokw.1) hdevalid this
      have hdehi : toOrd w.date_end < toOrd hi := by
        have ht0mem : t0 ∈ w2 :: rest := by rw [hteq]; simp
        have hb := hbounds t0 ht0mem
        have hokt0 : WinOk t0 := hoktail t0 ht0mem
        have : toOrd t0.date_start ≤ toOrd t0.date_end :=
          toOrd_le_of_leP hokt0.1 hokt0.2.1 hokt0.2.2
        omega
      refine ⟨⟨w, w2 :: rest, rfl, hds⟩, ⟨tl, ?_, htlde⟩, ?_, ?_, ?_⟩
      · rw [List.getLast?_cons_cons]
        exact htl
      · refine List.chain'_cons.mpr ⟨?_, hchain⟩
        have hw2 : w2 = t0 := by
          rw [List.cons.injEq] at hteq
          exact hteq.1
        rw [hw2, htds]
      · intro v hv
        rcases List.mem_cons.mp hv with rfl | hv2
        · rw [hds]
          exact ⟨le_refl _, by omega⟩
        · have hb := hbounds v hv2
          omega
      · intro n
        constructor
        · intro hn
          by_cases hcase : n ≤ toOrd w.date_end
          · exact ⟨w, by simp, by rw [hds]; exact hn.1, hcase⟩
          · have hn2 : toOrd (nextDay w.date_end) ≤ n := by omega
            obtain ⟨v, hv, hvb⟩ := (hcover n).mp ⟨hn2, hn.2⟩
            exact ⟨v, List.mem_cons_of_mem w hv, hvb⟩
        · rintro ⟨v, hv, h1, h2⟩
          rcases List.mem_cons.mp hv with rfl | hv2
          · rw [hds] at h1
            exact ⟨h1, by omega⟩
          · have hb := hbounds v hv2
            have := (hcover n).mpr ⟨v, hv2, h1, h2⟩
            omega

theorem coversExactly_pairwise {ws : List Window} :
    ∀ {lo hi : Date}, coversExactly lo hi ws → (∀ w ∈ ws, WinOk w) →
    List.Pairwise (fun w1 w2 => Date.ltP w1.date_end w2.date_start) ws := by
  induction ws with
  | nil => intro lo hi h _; exact h.elim
  | cons w tail ih =>
    intro lo hi hcov hok
    cases tail with
    | nil => exact List.pairwise_singleton _ w
    | cons w2 rest =>
      obtain ⟨hds, htail⟩ := hcov
      have hokw : WinOk w := hok w (by simp)
      have hoktail : ∀ v ∈ w2 :: rest, WinOk v := fun v hv =>
        hok v (List.mem_cons_of_mem w hv)
      refine List.pairwise_cons.mpr ⟨?_, ih htail hoktail⟩
      intro v hv
      obtain ⟨_, _, _, hbounds, _⟩ := coversExactly_props htail hoktail
      have hb := hbounds v hv
      have hokv : WinOk v := hoktail v hv
      have hnext : toOrd (nextDay w.date_end) = toOrd w.date_end + 1 :=
        toOrd_nextDay hokw.2.1
      exact ltP_of_toOrd_lt hokw.2.1 hokv.1 (by omega)

theorem monthEnd_isValid (cur : Date) (hm1 : 1 ≤ cur.m) (hm2 : cur.m ≤ 12) :
    (⟨cur.y, cur.m, monthLen cur.y cur.m⟩ : Date).IsValid := by
  refine ⟨hm1, hm2, ?_, le_refl _⟩
  exact monthLen_pos cur.y hm1 hm2

/-- Main structural lemma for one month slice of the partitioner: whenever the
clipped window is non-degenerate, the emitted windows cover exactly the
clipped date range `[windowStart, windowEnd]`, and each window is
well-formed. -/
theorem monthSliceWindows_covers (cooling cs : Option DateTime) (s e cur : Date)
    (hs : s.IsValid) (he : e.IsValid)
    (hcm1 : 1 ≤ cur.m) (hcm2 : cur.m ≤ 12)
    (hcool : ∀ c, cooling = some c → c.date.IsValid)
    (hwswe : Date.leP (if Date.leP s cur then cur else s)
      (if Date.leP (⟨cur.y, cur.m, monthLen cur.y cur.m⟩ : Date) e
       then (⟨cur.y, cur.m, monthLen cur.y cur.m⟩ : Date) else e))
    (hwsvalid : (if Date.leP s cur then cur else s).IsValid) :
    coversExactly (if Date.leP s cur then cur else s)
      (if Date.leP (⟨cur.y, cur.m, monthLen cur.y cur.m⟩ : Date) e
       then (⟨cur.y, cur.m, monthLen cur.y cur.m⟩ : Date) else e)
      (monthSliceWindows cooling cs s e cur) ∧
    ∀ w ∈ monthSliceWindows cooling cs s e cur, WinOk w := by
  set monthEnd : Date := ⟨cur.y, cur.m, monthLen cur.y cur.m⟩ with hme
  set ws : Date := if Date.leP s cur then cur else s with hws
  set we : Date := if Date.leP monthEnd e then monthEnd else e with hwe
  have hmevalid : monthEnd.IsValid := monthEnd_isValid cur hcm1 hcm2
  have hwevalid : we.IsValid := by
    rw [hwe]
    split_ifs
    · exact hmevalid
    · exact he
  have hnlt : ¬ Date.ltP we ws := Date.not_ltP_of_leP hwswe
  cases cooling with
  | none =>
    simp only [monthSliceWindows]
    rw [← hme, ← hws, ← hwe, if_neg hnlt, startLocal_eq_midnight cs ws]
    refine ⟨⟨rfl, rfl⟩, ?_⟩
    intro w hw
    rw [List.mem_singleton] at hw
    rw [hw]
    exact ⟨hwsvalid, hwevalid, hwswe⟩
  | some c =>
    have hcv : c.date.IsValid := hcool c rfl
    simp only [monthSliceWindows]
    rw [← hme, ← hws, ← hwe, if_neg hnlt, startLocal_eq_midnight cs ws]
    by_cases hcond :
        DateTime.leP (localizeDay ws false) c ∧ DateTime.leP c (localizeDay we true)
    · -- cooling boundary inside the window: split into one or two windows
      rw [if_pos hcond]
      obtain ⟨hc1, hc2⟩ := hcond
      have hfel : pyMinDT c (localizeDay we true) = c := pyMinDT_of_leP hc2
      rw [hfel]
      have hwsc : Date.leP ws c.date := dtLe_midnight_imp hc1
      have hcwe : Date.leP c.date we := dtLe_endOfDay_imp hc2
      by_cases hcw : Date.ltP c.date we
      · -- the cooling boundary ends strictly before the window end: two windows
        have hfed : pyMinDate we c.date = c.date := by
          unfold pyMinDate
          rw [if_pos hcw]
        rw [hfed, if_pos hwsc]
        have hac : Date.leP (nextDay c.date) we := leP_nextDay_of_ltP hcv hwevalid hcw
        rw [if_pos hac]
        have hspan : 0 < daysBetween (nextDay c.date) we + 1 := by
          unfold daysBetween
          have h1 : toOrd (nextDay c.date) = toOrd c.date + 1 := toOrd_nextDay hcv
          have h2 : toOrd c.date < toOrd we := toOrd_lt_of_ltP hcv hwevalid hcw
          omega
        rw [if_pos hspan]
        refine ⟨⟨rfl, rfl, rfl⟩, ?_⟩
        intro w hw
        simp only [List.cons_append, List.nil_append] at hw
        rcases List.mem_cons.mp hw with rfl | hw2
        · exact ⟨hwsvalid, hcv, hwsc⟩
        · rw [List.mem_singleton] at hw2
          rw [hw2]
          exact ⟨nextDay_isValid hcv, hwevalid, hac⟩
      · -- the cooling boundary reaches the window end: one cooling window
        have hfed : pyMinDate we c.date = we := by
          unfold pyMinDate
          rw [if_neg hcw]
        rw [hfed, if_pos hwswe]
        have hnac : ¬ Date.leP (nextDay we) we := by
          intro hle
          have h1 : toOrd (nextDay we) = toOrd we + 1 := toOrd_nextDay hwevalid
          have h2 : toOrd (nextDay we) ≤ toOrd we :=
            toOrd_le_of_leP (nextDay_isValid hwevalid) hwevalid hle
          omega
        rw [if_neg hnac]
        refine ⟨⟨rfl, rfl⟩, ?_⟩
        intro w hw
        simp only [List.append_nil, List.mem_singleton] at hw
        rw [hw]
        exact ⟨hwsvalid, hwevalid, hwswe⟩
    · -- no split: single window, possibly flagged as cooling
      rw [if_neg hcond]
      refine ⟨⟨rfl, rfl⟩, ?_⟩
      intro w hw
      rw [List.mem_singleton] at hw
      rw [hw]
      exact ⟨hwsvalid, hwevalid, hwswe⟩

theorem monthIndex_le_of_leP {a b : Date} (ham1 : 1 ≤ a.m) (ham2 : a.m ≤ 12)
    (hbm1 : 1 ≤ b.m) (hbm2 : b.m ≤ 12) (h : Date.leP a b) :
    monthIndex a ≤ monthIndex b := by
  unfold Date.leP at h
  unfold monthIndex
  omega

theorem ltP_of_monthIndex_lt {a b : Date} (ham1 : 1 ≤ a.m) (ham2 : a.m ≤ 12)
    (hbm1 : 1 ≤ b.m) (hbm2 : b.m ≤ 12) (h : monthIndex a < monthIndex b) :
    Date.ltP a b := by
  unfold monthIndex at h
  unfold Date.ltP
  omega

theorem leP_first_of_monthIndex_le {a b : Date} (had : a.d = 1)
    (ham1 : 1 ≤ a.m) (ham2 : a.m ≤ 12) (hbm1 : 1 ≤ b.m) (hbm2 : b.m ≤ 12)
    (hbd : 1 ≤ b.d) (h : monthIndex a ≤ monthIndex b) : Date.leP a b := by
  unfold monthIndex at h
  unfold Date.leP
  omega

theorem monthIndex_nextMonthFirst {a : Date} (ham1 : 1 ≤ a.m) (ham2 : a.m ≤ 12) :
    monthIndex (nextMonthFirst a) = monthIndex a + 1 := by
  unfold nextMonthFirst monthIndex
  split_ifs <;> dsimp only <;> omega

theorem nextMonthFirst_shape (a : Date) :
    (nextMonthFirst a).d = 1 ∧ 1 ≤ (nextMonthFirst a).m ∧ (nextMonthFirst a).m ≤ 12 := by
  unfold nextMonthFirst
  split_ifs with h <;> dsimp only <;> omega

theorem nextDay_monthEnd (cur : Date) :
    nextDay ⟨cur.y, cur.m, monthLen cur.y cur.m⟩ = nextMonthFirst cur := by
  unfold nextDay nextMonthFirst
  dsimp only
  rw [if_neg (lt_irrefl _)]

/-- Loop invariant of the `while` loop of `_gear_iter_monthly_windows`: run
from a first-of-month `cur` with exactly the remaining months as fuel, the
windows produced cover exactly `[max(cur, start_date), end_date]`. -/
theorem iterAux_covers (cooling cs : Option DateTime) (s e : Date)
    (hs : s.IsValid) (he : e.IsValid)
    (hcool : ∀ c, cooling = some c → c.date.IsValid) :
    ∀ (fuel : ℕ) (cur : Date), cur.d = 1 → 1 ≤ cur.m → cur.m ≤ 12 →
      monthIndex s ≤ monthIndex cur →
      Date.leP (if Date.leP s cur then cur else s) e →
      fuel = monthIndex e + 1 - monthIndex cur →
      coversExactly (if Date.leP s cur then cur else s) e
        (iterAux cooling cs s e fuel cur) ∧
      ∀ w ∈ iterAux cooling cs s e fuel cur, WinOk w := by
  intro fuel
  induction fuel with
  | zero =>
    intro cur hd hm1 hm2 hms hlo hfuel
    exfalso
    have hcurlo : Date.leP cur (if Date.leP s cur then cur else s) := by
      split_ifs with hsc
      · exact Date.leP_refl cur
      · exact Date.leP_of_ltP (Date.ltP_total hsc)
    have hcure : Date.leP cur e := Date.leP_trans hcurlo hlo
    have hMI : monthIndex cur ≤ monthIndex e :=
      monthIndex_le_of_leP hm1 hm2 he.1 he.2.1 hcure
    omega
  | succ k ih =>
    intro cur hd hm1 hm2 hms hlo hfuel
    have hcurvalid : cur.IsValid := by
      refine ⟨hm1, hm2, by omega, ?_⟩
      rw [hd]
      exact monthLen_pos cur.y hm1 hm2
    have hlovalid : (if Date.leP s cur then cur else s).IsValid := by
      split_ifs
      · exact hcurvalid
      · exact hs
    have hcurlo : Date.leP cur (if Date.leP s cur then cur else s) := by
      split_ifs with hsc
      · exact Date.leP_refl cur
      · exact Date.leP_of_ltP (Date.ltP_total hsc)
    have hcure : Date.leP cur e := Date.leP_trans hcurlo hlo
    have hMI : monthIndex cur ≤ monthIndex e :=
      monthIndex_le_of_leP hm1 hm2 he.1 he.2.1 hcure
    simp only [iterAux]
    rw [if_pos hcure]
    by_cases hMIeq : monthIndex cur = monthIndex e
    · -- final month of the span
      have hk : k = 0 := by omega
      rw [hk, show iterAux cooling cs s e 0 (nextMonthFirst cur) = [] from rfl,
        List.append_nil]
      have hym : cur.y = e.y ∧ cur.m = e.m := by
        unfold monthIndex at hMIeq
        obtain ⟨he1, he2, _, _⟩ := he
        omega
      have hweq : (if Date.leP (⟨cur.y, cur.m, monthLen cur.y cur.m⟩ : Date) e
          then (⟨cur.y, cur.m, monthLen cur.y cur.m⟩ : Date) else e) = e := by
        split_ifs with hle
        · obtain ⟨hy, hm⟩ := hym
          obtain ⟨he1, he2, he3, he4⟩ := he
          rcases e with ⟨e1, e2, e3⟩
          dsimp only at hy hm he4 ⊢
          rw [← hy, ← hm] at he4
          unfold Date.leP at hle
          dsimp only at hle
          have hd_eq : e3 = monthLen cur.y cur.m := by omega
          rw [Date.mk.injEq]
          exact ⟨hy, hm, hd_eq.symm⟩
        · rfl
      have hwswe2 : Date.leP (if Date.leP s cur then cur else s)
          (if Date.leP (⟨cur.y, cur.m, monthLen cur.y cur.m⟩ : Date) e
           then (⟨cur.y, cur.m, monthLen cur.y cur.m⟩ : Date) else e) := by
        rw [hweq]
        exact hlo
      obtain ⟨hcov, hok⟩ := monthSliceWindows_covers cooling cs s e cur hs he hm1 hm2
        hcool hwswe2 hlovalid
      rw [hweq] at hcov
      exact ⟨hcov, hok⟩
    · -- at least one further month follows
      have hMIlt : monthIndex cur < monthIndex e := by omega
      have hween : Date.leP (⟨cur.y, cur.m, monthLen cur.y cur.m⟩ : Date) e := by
        refine Date.leP_of_ltP (ltP_of_monthIndex_lt ?_ ?_ he.1 he.2.1 ?_)
        · exact hm1
        · exact hm2
        · unfold monthIndex at hMIlt ⊢
          dsimp only
          omega
      have hweq : (if Date.leP (⟨cur.y, cur.m, monthLen cur.y cur.m⟩ : Date) e
          then (⟨cur.y, cur.m, monthLen cur.y cur.m⟩ : Date) else e) =
          (⟨cur.y, cur.m, monthLen cur.y cur.m⟩ : Date) := by
        rw [if_pos hween]
      have hcurme : Date.leP cur (⟨cur.y, cur.m, monthLen cur.y cur.m⟩ : Date) := by
        unfold Date.leP
        dsimp only
        right
        refine ⟨rfl, Or.inr ⟨rfl, ?_⟩⟩
        rw [hd]
        exact monthLen_pos cur.y hm1 hm2
      have hsme : Date.leP (if Date.leP s cur then cur else s)
          (⟨cur.y, cur.m, monthLen cur.y cur.m⟩ : Date) := by
        split_ifs with hsc
        · exact hcurme
        · have hcs : Date.ltP cur s := Date.ltP_total hsc
          have hMIs : monthIndex cur ≤ monthIndex s :=
            monthIndex_le_of_leP hm1 hm2 hs.1 hs.2.1 (Date.leP_of_ltP hcs)
          have hym : s.y = cur.y ∧ s.m = cur.m := by
            unfold monthIndex at hms hMIs
            unfold Date.ltP at hcs
            obtain ⟨hs1, hs2, _, _⟩ := hs
            omega
          obtain ⟨hy, hm⟩ := hym
          have hsd : s.d ≤ monthLen cur.y cur.m := by
            have h4 := hs.2.2.2
            rw [hy, hm] at h4
            exact h4
          unfold Date.leP
          dsimp only
          omega
      have hwswe2 : Date.leP (if Date.leP s cur then cur else s)
          (if Date.leP (⟨cur.y, cur.m, monthLen cur.y cur.m⟩ : Date) e
           then (⟨cur.y, cur.m, monthLen cur.y cur.m⟩ : Date) else e) := by
        rw [hweq]
        exact hsme
      obtain ⟨hcov, hok⟩ := monthSliceWindows_covers cooling cs s e cur hs he hm1 hm2
        hcool hwswe2 hlovalid
      rw [hweq] at hcov
      -- the recursive call covers the rest of the span
      obtain ⟨hshape1, hshape2, hshape3⟩ := nextMonthFirst_shape cur
      have hMInext : monthIndex (nextMonthFirst cur) = monthIndex cur + 1 :=
        monthIndex_nextMonthFirst hm1 hm2
      have hscur1 : Date.leP s (nextMonthFirst cur) := by
        refine Date.leP_of_ltP (ltP_of_monthIndex_lt hs.1 hs.2.1 hshape2 hshape3 ?_)
        rw [hMInext]
        omega
      have hlo1 : Date.leP (nextMonthFirst cur) e := by
        refine leP_first_of_monthIndex_le hshape1 hshape2 hshape3 he.1 he.2.1
          he.2.2.1 ?_
        rw [hMInext]
        omega
      have hmsnext : monthIndex s ≤ monthIndex (nextMonthFirst cur) := by
        rw [hMInext]
        omega
      have hknext : k = monthIndex e + 1 - monthIndex (nextMonthFirst cur) := by
        rw [hMInext]
        omega
      have hrec := ih (nextMonthFirst cur) hshape1 hshape2 hshape3 hmsnext
        (by rw [if_pos hscur1]; exact hlo1) hknext
      rw [if_pos hscur1] at hrec
      obtain ⟨hcovrest, hokrest⟩ := hrec
      have hcovrest2 : coversExactly (nextDay ⟨cur.y, cur.m, monthLen cur.y cur.m⟩) e
          (iterAux cooling cs s e k (nextMonthFirst cur)) := by
        rw [nextDay_monthEnd cur]
        exact hcovrest
      refine ⟨coversExactly_append hcov hcovrest2, ?_⟩
      intro w hw
      rcases List.mem_append.mp hw with hw1 | hw2
      · exact hok w hw1
      · exact hokrest w hw2

theorem dtLeAntisymm {a b : DateTime} (h1 : DateTime.leP a b)
    (h2 : DateTime.leP b a) : a = b := by
  rcases a with ⟨⟨a1, a2, a3⟩, sa⟩
  rcases b with ⟨⟨b1, b2, b3⟩, sb⟩
  simp only [DateTime.leP, Date.ltP, Date.mk.injEq, DateTime.mk.injEq] at *
  omega

theorem localizeDay_leP {a b : Date} (h : Date.leP a b) :
    DateTime.leP (localizeDay a false) (localizeDay b true) := by
  rcases Date.leP_iff_ltP_or_eq.mp h with hlt | rfl
  · exact Or.inl hlt
  · exact Or.inr ⟨rfl, by norm_num [localizeDay]⟩

/-- C3: over a contract span with valid dates `start ≤ end`, the list returned
by `_gear_iter_monthly_windows` is non-empty, starts at the contract start,
ends at the contract end, has ordered per-window dates, consecutive windows
are contiguous (each starts the day after the previous ends), the windows are
sorted strictly by start date, pairwise non-overlapping, and their union
covers exactly every day ordinal of `[start_date, end_date]`. -/
theorem gear_iter_monthly_windows_partition
    (cooling cs : Option DateTime) (s e : Date) (ws : List Window)
    (hs : s.IsValid) (he : e.IsValid) (hse : Date.leP s e)
    (hcool : ∀ c, cooling = some c → c.date.IsValid)
    (hws : ws = gear_iter_monthly_windows cooling cs s e) :
    ws ≠ [] ∧
    (∃ w0 rest, ws = w0 :: rest ∧ w0.date_start = s) ∧
    (∃ wl, ws.getLast? = some wl ∧ wl.date_end = e) ∧
    (∀ w ∈ ws, Date.leP w.date_start w.date_end) ∧
    List.Chain' (fun w1 w2 => w2.date_start = nextDay w1.date_end) ws ∧
    List.Pairwise (fun w1 w2 => Date.ltP w1.date_start w2.date_start) ws ∧
    List.Pairwise (fun w1 w2 => Date.ltP w1.date_end w2.date_start) ws ∧
    (∀ n : ℕ, (toOrd s ≤ n ∧ n ≤ toOrd e) ↔
      ∃ w ∈ ws, toOrd w.date_start ≤ n ∧ n ≤ toOrd w.date_end) := by
  subst hws
  unfold gear_iter_monthly_windows
  have hshape1 : (monthFirst s).d = 1 := rfl
  have hshape2 : 1 ≤ (monthFirst s).m := hs.1
  have hshape3 : (monthFirst s).m ≤ 12 := hs.2.1
  have hMI : monthIndex s ≤ monthIndex (monthFirst s) := le_refl _
  have hlo_eq : (if Date.leP s (monthFirst s) then monthFirst s else s) = s := by
    split_ifs with hsm
    · have hd1 : s.d ≤ 1 := by
        unfold Date.leP at hsm
        unfold monthFirst at hsm
        dsimp only at hsm
        omega
      have hd1e : s.d = 1 := by
        have := hs.2.2.1
        omega
      unfold monthFirst
      rw [Date.mk.injEq]
      exact ⟨rfl, rfl, hd1e.symm⟩
    · rfl
  have hloe : Date.leP (if Date.leP s (monthFirst s) then monthFirst s else s) e := by
    rw [hlo_eq]
    exact hse
  obtain ⟨hcov, hok⟩ := iterAux_covers cooling cs s e hs he hcool
    (monthIndex e + 1 - monthIndex (monthFirst s)) (monthFirst s)
    hshape1 hshape2 hshape3 hMI hloe rfl
  rw [hlo_eq] at hcov
  obtain ⟨hhead, hlast, hchain, hbounds, hcover⟩ := coversExactly_props hcov hok
  have hpair : List.Pairwise
      (fun w1 w2 => Date.ltP w1.date_end w2.date_start)
      (iterAux cooling cs s e (monthIndex e + 1 - monthIndex (monthFirst s))
        (monthFirst s)) :=
    coversExactly_pairwise hcov hok
  refine ⟨coversExactly_ne_nil hcov, hhead, hlast, ?_, hchain, ?_, hpair, hcover⟩
  · intro w hw
    exact (hok w hw).2.2
  · refine hpair.imp_of_mem ?_
    intro w1 w2 hw1 hw2 h12
    have hok1 := hok w1 hw1
    have hok2 := hok w2 hw2
    have h1 : toOrd w1.date_start ≤ toOrd w1.date_end :=
      toOrd_le_of_leP hok1.1 hok1.2.1 hok1.2.2
    have h2 : toOrd w1.date_end < toOrd w2.date_start :=
      toOrd_lt_of_ltP hok1.2.1 hok2.1 h12
    exact ltP_of_toOrd_lt hok1.1 hok2.1 (by omega)

theorem gear_iter_monthly_windows_partition_witness :
    gear_iter_monthly_windows (some ⟨⟨2024, 2, 10⟩, 3600⟩) none
      ⟨2024, 1, 15⟩ ⟨2024, 3, 10⟩ ≠ [] := by
  have h := gear_iter_monthly_windows_partition (some ⟨⟨2024, 2, 10⟩, 3600⟩) none
    ⟨2024, 1, 15⟩ ⟨2024, 3, 10⟩ _ (by decide) (by decide) (by decide)
    (by intro c hc; cases hc; decide) rfl
  exact h.1

/-- C8: edge cases of the partitioner loop body: a month slice whose clipped
start is after its clipped end contributes no window; with no cooling-end
datetime a month slice never yields more than one window (no cooling split);
and a slice whose whole local range lies at or before the cooling end is
emitted as the single month window flagged `is_cooling = True`. -/
theorem monthSliceWindows_edge_cases :
    (∀ (cooling cs : Option DateTime) (s e cur : Date),
      Date.ltP (if Date.leP (⟨cur.y, cur.m, monthLen cur.y cur.m⟩ : Date) e
          then (⟨cur.y, cur.m, monthLen cur.y cur.m⟩ : Date) else e)
        (if Date.leP s cur then cur else s) →
      monthSliceWindows cooling cs s e cur = []) ∧
    (∀ (cs : Option DateTime) (s e cur : Date),
      (monthSliceWindows none cs s e cur).length ≤ 1) ∧
    (∀ (c : DateTime) (cs : Option DateTime) (s e cur : Date),
      1 ≤ cur.m → cur.m ≤ 12 → e.IsValid →
      Date.leP (if Date.leP s cur then cur else s)
        (if Date.leP (⟨cur.y, cur.m, monthLen cur.y cur.m⟩ : Date) e
         then (⟨cur.y, cur.m, monthLen cur.y cur.m⟩ : Date) else e) →
      DateTime.leP
        (localizeDay (if Date.leP (⟨cur.y, cur.m, monthLen cur.y cur.m⟩ : Date) e
          then (⟨cur.y, cur.m, monthLen cur.y cur.m⟩ : Date) else e) true) c →
      monthSliceWindows (some c) cs s e cur =
        [⟨if Date.leP s cur then cur else s,
          if Date.leP (⟨cur.y, cur.m, monthLen cur.y cur.m⟩ : Date) e
            then (⟨cur.y, cur.m, monthLen cur.y cur.m⟩ : Date) else e,
          localizeDay (if Date.leP s cur then cur else s) false,
          localizeDay (if Date.leP (⟨cur.y, cur.m, monthLen cur.y cur.m⟩ : Date) e
            then (⟨cur.y, cur.m, monthLen cur.y cur.m⟩ : Date) else e) true,
          true, monthLen cur.y cur.m,
          daysBetween (if Date.leP s cur then cur else s)
            (if Date.leP (⟨cur.y, cur.m, monthLen cur.y cur.m⟩ : Date) e
             then (⟨cur.y, cur.m, monthLen cur.y cur.m⟩ : Date) else e) + 1,
          computeHours (localizeDay cur false)
            (localizeDay (⟨cur.y, cur.m, monthLen cur.y cur.m⟩ : Date) true),
          computeHours (localizeDay (if Date.leP s cur then cur else s) false)
            (localizeDay (if Date.leP (⟨cur.y, cur.m, monthLen cur.y cur.m⟩ : Date) e
              then (⟨cur.y, cur.m, monthLen cur.y cur.m⟩ : Date) else e) true)⟩]) := by
  refine ⟨?_, ?_, ?_⟩
  · intro cooling cs s e cur h
    simp only [monthSliceWindows]
    rw [if_pos h]
  · intro cs s e cur
    simp only [monthSliceWindows]
    split_ifs <;> simp
  · intro c cs s e cur hm1 hm2 he hwswe hcend
    set monthEnd : Date := ⟨cur.y, cur.m, monthLen cur.y cur.m⟩ with hme
    set ws : Date := if Date.leP s cur then cur else s with hws
    set we : Date := if Date.leP monthEnd e then monthEnd else e with hwe
    have hmevalid : monthEnd.IsValid := monthEnd_isValid cur hm1 hm2
    have hwevalid : we.IsValid := by
      rw [hwe]
      split_ifs
      · exact hmevalid
      · exact he
    have hnlt : ¬ Date.ltP we ws := Date.not_ltP_of_leP hwswe
    simp only [monthSliceWindows]
    rw [← hme, ← hws, ← hwe, if_neg hnlt, startLocal_eq_midnight cs ws]
    by_cases hcond :
        DateTime.leP (localizeDay ws false) c ∧ DateTime.leP c (localizeDay we true)
    · -- the cooling end coincides with the very end of the window
      rw [if_pos hcond]
      obtain ⟨hc1, hc2⟩ := hcond
      have hceq : c = localizeDay we true := dtLeAntisymm hc2 hcend
      subst hceq
      rw [pyMinDT_of_leP hc2]
      have hdate : (localizeDay we true).date = we := rfl
      rw [hdate]
      have hfed : pyMinDate we we = we := by
        unfold pyMinDate
        rw [if_neg (Date.ltP_irrefl we)]
      rw [hfed, if_pos hwswe]
      have hnac : ¬ Date.leP (nextDay we) we := by
        intro hle
        have h1 : toOrd (nextDay we) = toOrd we + 1 := toOrd_nextDay hwevalid
        have h2 : toOrd (nextDay we) ≤ toOrd we :=
          toOrd_le_of_leP (nextDay_isValid hwevalid) hwevalid hle
        omega
      rw [if_neg hnac, List.append_nil]
    · -- the cooling end lies strictly after the end of the window
      rw [if_neg hcond]
      have hcool_true : DateTime.leP (localizeDay we true) c := hcend
      rw [decide_eq_true hcool_true]

theorem monthSliceWindows_edge_cases_witness :
    monthSliceWindows none none ⟨2024, 5, 1⟩ ⟨2024, 4, 30⟩ ⟨2024, 4, 1⟩ = [] ∧
    (monthSliceWindows none none ⟨2024, 1, 15⟩ ⟨2024, 3, 10⟩ ⟨2024, 2, 1⟩).length ≤ 1 ∧
    monthSliceWindows (some ⟨⟨2024, 2, 15⟩, 0⟩) none ⟨2024, 1, 10⟩ ⟨2024, 3, 20⟩ ⟨2024, 1, 1⟩ =
      [⟨⟨2024, 1, 10⟩, ⟨2024, 1, 31⟩, localizeDay ⟨2024, 1, 10⟩ false,
        localizeDay ⟨2024, 1, 31⟩ true, true, 31,
        daysBetween ⟨2024, 1, 10⟩ ⟨2024, 1, 31⟩ + 1,
        computeHours (localizeDay ⟨2024, 1, 1⟩ false) (localizeDay ⟨2024, 1, 31⟩ true),
        computeHours (localizeDay ⟨2024, 1, 10⟩ false) (localizeDay ⟨2024, 1, 31⟩ true)⟩] := by
  refine ⟨?_, ?_, ?_⟩
  · exact monthSliceWindows_edge_cases.1 none none ⟨2024, 5, 1⟩ ⟨2024, 4, 30⟩ ⟨2024, 4, 1⟩
      (by decide)
  · exact monthSliceWindows_edge_cases.2.1 none ⟨2024, 1, 15⟩ ⟨2024, 3, 10⟩ ⟨2024, 2, 1⟩
  · have h := monthSliceWindows_edge_cases.2.2 ⟨⟨2024, 2, 15⟩, 0⟩ none
      ⟨2024, 1, 10⟩ ⟨2024, 3, 20⟩ ⟨2024, 1, 1⟩ (by decide) (by decide) (by decide)
      (by decide) (by decide)
    exact h

/-! ## MGQ proration: `GearRmcMonthlyOrder._gear_get_prorated_mgq` and the MGQ
snapshot block of `SaleOrder.gear_generate_monthly_orders`

Sources: `gear_on_rent/models/rmc_work_order.py` lines 295-313 and
`gear_on_rent/models/sale_order.py` lines 190-199.  The hour/day quantities
are the already-computed field values (`_gear_get_month_hours` etc.); Python
float truthiness (`if month_hours:`) is `≠ 0`. -/

/-- The proration ratio of `_gear_get_prorated_mgq`, including the final
`ratio = max(min(ratio, 1.0), 0.0)` clamp. -/
def gearProratedRatio (monthHours windowHours monthDays windowDays : ℚ) : ℚ :=
  let ratio :=
    if monthHours ≠ 0 then (if windowHours ≠ 0 then windowHours / monthHours else 0)
    else (if monthDays ≠ 0 then windowDays / monthDays else 0)
  max (min ratio 1) 0

/-- Embedding of `_gear_get_prorated_mgq` on the field values it reads. -/
def gear_get_prorated_mgq (baseMgq monthHours windowHours monthDays windowDays
    snapshot : ℚ) : ℚ :=
  let ratio := gearProratedRatio monthHours windowHours monthDays windowDays
  if baseMgq ≠ 0 then baseMgq * ratio
  else if snapshot ≠ 0 then snapshot
  else 0

/-- The ratio computed in the snapshot block of `gear_generate_monthly_orders`
(no clamp in the source). -/
def gearSnapshotRatio (monthHours windowHours monthDays spanDays : ℚ) : ℚ :=
  if monthHours ≠ 0 then windowHours / monthHours
  else if monthDays ≠ 0 then spanDays / monthDays
  else 1

/-- `snapshot = mgq_total * ratio if mgq_total else 0.0`. -/
def gearMgqSnapshot (mgqTotal monthHours windowHours monthDays spanDays : ℚ) : ℚ :=
  if mgqTotal ≠ 0 then
    mgqTotal * gearSnapshotRatio monthHours windowHours monthDays spanDays
  else 0

/-- C2 (counterexample): in the snapshot block of
`gear_generate_monthly_orders` the ratio is used without any clamp: with
`month_hours = 24` and `window_hours = 48` the ratio is `2 > 1`, and a base
MGQ of 10 yields a snapshot of 20, so the ratio is not clamped into [0, 1] in
both computations. -/
theorem gear_mgq_snapshot_not_clamped :
    gearSnapshotRatio 24 48 30 30 = 2 ∧
    ¬ gearSnapshotRatio 24 48 30 30 ≤ 1 ∧
    gearMgqSnapshot 10 24 48 30 30 = 20 := by
  refine ⟨?_, ?_, ?_⟩ <;> norm_num [gearSnapshotRatio, gearMgqSnapshot]

/-- C2 (amended): the proration ratio of `_gear_get_prorated_mgq` is clamped
into [0, 1] for all field values (hour-based or day-based fallback alike);
the snapshot ratio of `gear_generate_monthly_orders` carries no clamp and
lies in [0, 1] only under the additional assumption
`0 ≤ window_hours ≤ month_hours`. -/
theorem gear_prorated_ratio_clamped :
    (∀ mh wh md wd : ℚ,
      0 ≤ gearProratedRatio mh wh md wd ∧ gearProratedRatio mh wh md wd ≤ 1) ∧
    (∀ mh wh md sd : ℚ, 0 < mh → 0 ≤ wh → wh ≤ mh →
      0 ≤ gearSnapshotRatio mh wh md sd ∧ gearSnapshotRatio mh wh md sd ≤ 1) := by
  constructor
  · intro mh wh md wd
    unfold gearProratedRatio
    constructor
    · exact le_max_right _ _
    · exact max_le (le_trans (min_le_right _ _) (le_refl 1)) zero_le_one
  · intro mh wh md sd hmh hwh hle
    unfold gearSnapshotRatio
    rw [if_pos (ne_of_gt hmh)]
    exact ⟨div_nonneg hwh (le_of_lt hmh), (div_le_one hmh).mpr hle⟩

theorem gear_prorated_ratio_clamped_witness :
    (0 ≤ gearProratedRatio 24 48 30 30 ∧ gearProratedRatio 24 48 30 30 ≤ 1) ∧
    (0 ≤ gearSnapshotRatio 24 12 30 30 ∧ gearSnapshotRatio 24 12 30 30 ≤ 1) :=
  ⟨gear_prorated_ratio_clamped.1 24 48 30 30,
   gear_prorated_ratio_clamped.2 24 12 30 30 (by norm_num) (by norm_num) (by norm_num)⟩

/-! ## Retention release scheduler: `Agreement._get_retention_release_date`

Source: `rmc_manpower_contractor/models/agreement.py`, lines 478-489.
`reference_date = bill.invoice_date_due or bill.invoice_date or today`;
the duration policy defaults to `'90_days'`; `timedelta(days=90)` is plain
day stepping, `relativedelta(months=6)` / `relativedelta(years=1)` are
calendar arithmetic clamping the day to the target month length. -/

inductive RetentionDuration
  | d90
  | m6
  | y1
  | overPeriod
deriving DecidableEq, Repr

/-- `reference_date + timedelta(days=k)`. -/
def addDays : Date → ℕ → Date
  | d, 0 => d
  | d, k + 1 => addDays (nextDay d) k

/-- `reference_date + relativedelta(months=k)`. -/
def addMonths (d : Date) (k : ℕ) : Date :=
  let t := d.y * 12 + (d.m - 1) + k
  ⟨t / 12, t % 12 + 1, min d.d (monthLen (t / 12) (t % 12 + 1))⟩

/-- `reference_date + relativedelta(years=k)`. -/
def addYears (d : Date) (k : ℕ) : Date :=
  ⟨d.y + k, d.m, min d.d (monthLen (d.y + k) d.m)⟩

/-- Embedding of `_get_retention_release_date` on the fields it reads. -/
def get_retention_release_date (invoiceDateDue invoiceDate : Option Date)
    (today : Date) (retentionDuration : Option RetentionDuration)
    (endDate validityEnd : Option Date) : Date :=
  let referenceDate := invoiceDateDue.getD (invoiceDate.getD today)
  let duration := retentionDuration.getD RetentionDuration.d90
  match duration with
  | RetentionDuration.d90 => addDays referenceDate 90
  | RetentionDuration.m6 => addMonths referenceDate 6
  | RetentionDuration.y1 => addYears referenceDate 1
  | RetentionDuration.overPeriod => endDate.getD (validityEnd.getD referenceDate)

theorem addDays_spec : ∀ (k : ℕ) (d : Date), d.IsValid →
    (addDays d k).IsValid ∧ toOrd (addDays d k) = toOrd d + k := by
  intro k
  induction k with
  | zero => intro d hd; exact ⟨hd, rfl⟩
  | succ n ih =>
    intro d hd
    have hstep : addDays d (n + 1) = addDays (nextDay d) n := rfl
    obtain ⟨hv, ho⟩ := ih (nextDay d) (nextDay_isValid hd)
    rw [hstep]
    refine ⟨hv, ?_⟩
    rw [ho, toOrd_nextDay hd]
    ring

set_option maxRecDepth 8000 in
/-- C4: the retention release date is a pure function of the bill reference
date (due date, else invoice date, else today) and the duration policy:
`90_days` adds 90 calendar days (exactly 90 day ordinals), `6_months` adds 6
calendar months, `1_year` adds one calendar year, and `over_period` falls back
to the agreement end (contract `end_date`, else `validity_end`), else the
reference date; for `90_days` with reference 2024-01-01 the release date is
2024-03-31. -/
theorem get_retention_release_date_policy :
    (∀ due inv : Option Date, ∀ today : Date, ∀ endD vE : Option Date,
      get_retention_release_date due inv today (some RetentionDuration.d90) endD vE =
        addDays (due.getD (inv.getD today)) 90 ∧
      ((due.getD (inv.getD today)).IsValid →
        toOrd (get_retention_release_date due inv today
            (some RetentionDuration.d90) endD vE) =
          toOrd (due.getD (inv.getD today)) + 90) ∧
      get_retention_release_date due inv today (some RetentionDuration.m6) endD vE =
        addMonths (due.getD (inv.getD today)) 6 ∧
      get_retention_release_date due inv today (some RetentionDuration.y1) endD vE =
        addYears (due.getD (inv.getD today)) 1 ∧
      get_retention_release_date due inv today (some RetentionDuration.overPeriod) endD vE =
        endD.getD (vE.getD (due.getD (inv.getD today)))) ∧
    get_retention_release_date (some ⟨2024, 1, 1⟩) none ⟨2024, 1, 1⟩
      (some RetentionDuration.d90) none none = ⟨2024, 3, 31⟩ := by
  constructor
  · intro due inv today endD vE
    refine ⟨rfl, ?_, rfl, rfl, rfl⟩
    intro hvalid
    exact (addDays_spec 90 _ hvalid).2
  · decide

theorem get_retention_release_date_policy_witness :
    toOrd (get_retention_release_date (some ⟨2024, 1, 1⟩) none ⟨2024, 1, 1⟩
        (some RetentionDuration.d90) none none) =
      toOrd ⟨2024, 1, 1⟩ + 90 := by
  have h := get_retention_release_date_policy.1 (some ⟨2024, 1, 1⟩) none
    ⟨2024, 1, 1⟩ none none
  exact h.2.1 (by decide)

/-! ## Settlement gating: `SettlementWizard.action_confirm` and
`Agreement._get_settlement_blockers`

Sources: `rmc_manpower_contractor/wizards/settlement_wizard.py` lines 225-253
and `rmc_manpower_contractor/models/agreement.py` lines 1400-1446.  The
`rmc.breakdown.event` record itself is not part of the repository sources;
its three fields are modelled exactly as the blocker filter reads them.
Display strings are modelled as `Blocker` tags; the financial action,
consumed-record marking, report and chatter calls of the success path are
ORM side effects summarised by an error oracle `financialError` that, like
the code, runs strictly before `agreement.state = 'settled'` is written. -/

inductive AgreementState
  | draft
  | offer
  | negotiation
  | registration
  | verification
  | signPending
  | active
  | suspended
  | expired
  | closureReview
  | settled
deriving DecidableEq, Repr

inductive Responsibility
  | contractor
  | company
deriving DecidableEq, Repr

inductive BreakdownEventState
  | reported
  | inProgress
  | closed
deriving DecidableEq, Repr

structure BreakdownEvent where
  responsibility : Responsibility
  state : BreakdownEventState
  settlement_included : Bool
deriving DecidableEq, Repr

inductive InventoryState
  | draft
  | issued
  | returned
  | reconciled
deriving DecidableEq, Repr

structure InventoryHandover where
  state : InventoryState
  settlement_included : Bool
  is_final : Bool
  acknowledged_by : Bool
  ack_signature : Bool
  variance_value : ℚ
  damage_cost : ℚ
deriving DecidableEq, Repr

inductive Blocker
  | notSigned
  | breakdownPending
  | inventoryPending
  | finalHandbackPending
deriving DecidableEq, Repr

structure Agreement where
  state : AgreementState
  signed : Bool
  breakdown_event_ids : List BreakdownEvent
  inventory_handover_ids : List InventoryHandover
  settlement_hold : Bool
  settlement_hold_reason : List Blocker
deriving DecidableEq, Repr

/-- `odoo.tools.float_is_zero(v, precision_rounding=p)` (HALF-UP rounding). -/
def floatIsZero (v p : ℚ) : Bool := decide (2 * |v| < p)

/-- The blocker filter on breakdown events:
`ev.responsibility == 'contractor' and (ev.state != 'closed' or not
ev.settlement_included)`. -/
def isOpenContractorBreakdown (ev : BreakdownEvent) : Bool :=
  decide (ev.responsibility = Responsibility.contractor) &&
    (decide (ev.state ≠ BreakdownEventState.closed) || !ev.settlement_included)

/-- Embedding of `_get_settlement_blockers(currency, inventory_records)`. -/
def get_settlement_blockers (a : Agreement) (precision : ℚ)
    (inventoryRecords : List InventoryHandover) : List Blocker :=
  (if a.signed then [] else [Blocker.notSigned]) ++
  (if a.breakdown_event_ids.filter isOpenContractorBreakdown ≠ [] then
    [Blocker.breakdownPending] else []) ++
  (if a.inventory_handover_ids.filter
      (fun rec0 => decide (rec0.state = InventoryState.draft) ||
        decide (rec0.state = InventoryState.issued)) ≠ [] then
    [Blocker.inventoryPending] else []) ++
  (if inventoryRecords.filter
      (fun rec0 => rec0.is_final && (!rec0.acknowledged_by || !rec0.ack_signature) &&
        (!floatIsZero rec0.variance_value precision ||
         !floatIsZero rec0.damage_cost precision)) ≠ [] then
    [Blocker.finalHandbackPending] else [])

inductive ConfirmError
  | notInClosureReview
  | holdDetected
  | financialActionFailed
deriving DecidableEq, Repr

/-- Embedding of `SettlementWizard.action_confirm`: the returned agreement is
the record state after the call, the second component is the raised error,
if any.  `wizardInventory` is the wizard's `inventory_handover_ids` recordset
passed to the blocker check; `financialError` summarises any failure of the
financial/settlement side effects that run before the final state write. -/
def action_confirm (a : Agreement) (precision : ℚ)
    (wizardInventory : List InventoryHandover)
    (financialError : Option ConfirmError) : Agreement × Option ConfirmError :=
  if a.state ≠ AgreementState.closureReview then
    (a, some ConfirmError.notInClosureReview)
  else
    let reasons := get_settlement_blockers a precision wizardInventory
    if reasons ≠ [] then
      ({a with settlement_hold := true, settlement_hold_reason := reasons},
        some ConfirmError.holdDetected)
    else
      let a1 := {a with settlement_hold := false, settlement_hold_reason := []}
      match financialError with
      | some err => (a1, some err)
      | none => ({a1 with state := AgreementState.settled}, none)

/-- C5: confirming the settlement wizard on an agreement in closure review
that still has an open contractor-fault breakdown event (responsibility
`contractor` and either not closed or not settlement-included) raises, and
the agreement's state stays `closure_review` — it is never moved to
`settled`. -/
theorem action_confirm_blocked_on_contractor_breakdown :
    ∀ (a : Agreement) (p : ℚ) (inv : List InventoryHandover)
      (fin : Option ConfirmError),
    a.state = AgreementState.closureReview →
    (∃ ev ∈ a.breakdown_event_ids, ev.responsibility = Responsibility.contractor ∧
      (ev.state ≠ BreakdownEventState.closed ∨ ev.settlement_included = false)) →
    (action_confirm a p inv fin).2.isSome ∧
    (action_confirm a p inv fin).1.state = AgreementState.closureReview := by
  intro a p inv fin hstate hev
  obtain ⟨ev, hmem, hresp, hopen⟩ := hev
  have hfilter : ev ∈ a.breakdown_event_ids.filter isOpenContractorBreakdown := by
    rw [List.mem_filter]
    refine ⟨hmem, ?_⟩
    unfold isOpenContractorBreakdown
    rw [Bool.and_eq_true, Bool.or_eq_true, decide_eq_true_eq, decide_eq_true_eq]
    refine ⟨hresp, ?_⟩
    rcases hopen with h | h
    · exact Or.inl h
    · right
      rw [h]
      rfl
  have hmid : Blocker.breakdownPending ∈ get_settlement_blockers a p inv := by
    unfold get_settlement_blockers
    have hne : a.breakdown_event_ids.filter isOpenContractorBreakdown ≠ [] :=
      List.ne_nil_of_mem hfilter
    rw [if_pos hne]
    simp
  have hreasons : get_settlement_blockers a p inv ≠ [] :=
    List.ne_nil_of_mem hmid
  unfold action_confirm
  rw [if_neg (by rw [hstate]; simp)]
  simp only [if_pos hreasons]
  exact ⟨rfl, hstate⟩

theorem action_confirm_blocked_on_contractor_breakdown_witness :
    (action_confirm
      ⟨AgreementState.closureReview, true,
        [⟨Responsibility.contractor, BreakdownEventState.reported, false⟩],
        [], false, []⟩ 1 [] none).2.isSome ∧
    (action_confirm
      ⟨AgreementState.closureReview, true,
        [⟨Responsibility.contractor, BreakdownEventState.reported, false⟩],
        [], false, []⟩ 1 [] none).1.state = AgreementState.closureReview := by
  apply action_confirm_blocked_on_contractor_breakdown
  · rfl
  · exact ⟨⟨Responsibility.contractor, BreakdownEventState.reported, false⟩,
      List.mem_singleton_self _, rfl, Or.inl (by simp)⟩

/-! ## Telemetry webhook: `GearIdsController.ids_workcenter_update` and
`_check_token`

Source: `gear_on_rent/controllers/ids.py`, lines 21-111.  ORM lookups and
writes are oracles over an abstract per-transaction datastore `δ`; the open
database transaction is a pair of the last committed datastore and the
current one, and `cr.rollback()` discards the uncommitted part.  Each oracle
either returns a value plus an updated current datastore, or raises (an
`Except.error`), exactly the two outcomes a `sudo()` ORM call can have
here. -/

structure HttpResponse where
  status : ℕ
  body : String
deriving DecidableEq, Repr

/-- The 401 response literal of `_check_token`. -/
def response401 : HttpResponse :=
  ⟨401, "\x7b\"status\": \"error\", \"message\": \"Unauthorized\"\x7d"⟩

/-- The header-token extraction of `_check_token`: `X-IDS-Token` first, else a
`Bearer `/`Token ` prefixed `Authorization` header (case-insensitive prefix
match, value taken verbatim); missing headers behave as the empty string, as
Python truthiness does. -/
def extractHeaderToken (xIdsToken : Option String) (authorization : String) : String :=
  let h0 := xIdsToken.getD ""
  if h0 = "" then
    if (authorization.toLower).startsWith "bearer " then authorization.drop 7
    else if (authorization.toLower).startsWith "token " then authorization.drop 6
    else ""
  else h0

/-- Embedding of `_check_token`: `none` means the request is accepted. -/
def check_token (tokenParam : Option String) (xIdsToken : Option String)
    (authorization : String) : Option HttpResponse :=
  match tokenParam with
  | none => none
  | some tp =>
    if tp = "" then none
    else
      let headerToken := extractHeaderToken xIdsToken authorization
      if tp ≠ "" ∧ headerToken ≠ "" ∧ headerToken = tp then none
      else some response401

/-- An open database transaction over the datastore `δ`. -/
structure Txn (δ : Type) where
  committed : δ
  current : δ

/-- `env.cr.rollback()`. -/
def Txn.rollback {δ : Type} (t : Txn δ) : Txn δ := ⟨t.committed, t.committed⟩

/-- One fallible ORM call acting on the current datastore. -/
def OrmCall (δ α : Type) := δ → Except String (α × δ)

/-- JSON payload of `POST /ids/workcenter/update` (fields the control flow
reads; the remaining telemetry fields ride along opaquely). -/
structure IdsPayload where
  workcenter_external_id : Option String
  timestamp : Option String
deriving DecidableEq, Repr

/-- The ORM surface the handler touches, as oracles (ids stand for records). -/
structure IdsOps (δ : Type) where
  tokenParam : Option String
  resolveWorkcenter : IdsPayload → OrmCall δ (Option ℕ)
  parseTimestamp : Option String → OrmCall δ ℤ
  findWorkorder : ℕ → ℤ → OrmCall δ (Option ℕ)
  findMoForDatetime : ℕ → ℤ → OrmCall δ (Option ℕ)
  firstWorkorderOf : ℕ → OrmCall δ (Option ℕ)
  createWorkorder : ℕ → ℕ → OrmCall δ ℕ
  searchMonthly : ℕ → ℤ → OrmCall δ (Option ℕ)
  firstProductionOf : ℕ → OrmCall δ (Option ℕ)
  registerIdsPayload : ℕ → IdsPayload → OrmCall δ (Option ℕ)
  productionOf : ℕ → OrmCall δ (Option ℕ)
  monthlyOf : ℕ → OrmCall δ (Option ℕ)

inductive IdsResponse
  | http (r : HttpResponse)
  | errEnv (message : String)
  | okEnv (workorderId : ℕ) (productionId : Option ℕ) (monthlyId : Option ℕ)
      (docketId : Option ℕ)
deriving DecidableEq, Repr

/-- Run one ORM call inside the transaction and continue; an exception keeps
the transaction (with whatever was already written) and propagates. -/
def withOrm {δ α β : Type} (c : OrmCall δ α) (t : Txn δ)
    (k : α → Txn δ → EStateM.Result String (Txn δ) β) :
    EStateM.Result String (Txn δ) β :=
  match c t.current with
  | Except.ok (a, d1) => k a ⟨t.committed, d1⟩
  | Except.error e => EStateM.Result.error e t

/-- Tail of the `try:` block once the work-order lookup chain has finished:
either no work order was found (error envelope), or the payload is registered
as a docket and the `status: ok` envelope is assembled from
`workorder.production_id` and `production.x_monthly_order_id`. -/
def idsAfterLookup {δ : Type} (ops : IdsOps δ) (p : IdsPayload) (wo2 : Option ℕ)
    (t : Txn δ) : EStateM.Result String (Txn δ) IdsResponse :=
  match wo2 with
  | some wo =>
    withOrm (ops.registerIdsPayload wo p) t fun docket t =>
      withOrm (ops.productionOf wo) t fun prod2 t =>
        match prod2 with
        | some prod =>
          withOrm (ops.monthlyOf prod) t fun monthly t =>
            EStateM.Result.ok (IdsResponse.okEnv wo (some prod) monthly docket) t
        | none =>
          EStateM.Result.ok (IdsResponse.okEnv wo none none docket) t
  | none =>
    EStateM.Result.ok
      (IdsResponse.errEnv "Unable to locate or create a work order for telemetry.") t

/-- The monthly-order fallback of the lookup chain (`if not workorder:` after
the MO-based block), then the tail. -/
def idsViaMonthly {δ : Type} (ops : IdsOps δ) (p : IdsPayload) (wc : ℕ) (ts : ℤ)
    (wo1 : Option ℕ) (t : Txn δ) : EStateM.Result String (Txn δ) IdsResponse :=
  match wo1 with
  | some wo => idsAfterLookup ops p (some wo) t
  | none =>
    withOrm (ops.searchMonthly wc ts) t fun monthly1 t =>
      match monthly1 with
      | none =>
        EStateM.Result.ok
          (IdsResponse.errEnv "No active work order found for the provided timestamp.") t
      | some monthly =>
        withOrm (ops.firstProductionOf monthly) t fun prod1 t =>
          match prod1 with
          | some prod =>
            withOrm (ops.firstWorkorderOf prod) t fun wo3 t =>
              idsAfterLookup ops p wo3 t
          | none => idsAfterLookup ops p none t

/-- The `try:` block of `ids_workcenter_update`: token check, work-center
resolution, the three-stage work-order lookup (direct, via an MO for the
timestamp with on-the-fly work-order creation, via the monthly order), docket
registration, and the `status: ok` envelope. -/
def idsBody {δ : Type} (ops : IdsOps δ) (p : IdsPayload) (xIdsToken : Option String)
    (authorization : String) (t : Txn δ) : EStateM.Result String (Txn δ) IdsResponse :=
  match check_token ops.tokenParam xIdsToken authorization with
  | some r => EStateM.Result.ok (IdsResponse.http r) t
  | none =>
    withOrm (ops.resolveWorkcenter p) t fun wc1 t =>
      match wc1 with
      | none => EStateM.Result.ok (IdsResponse.errEnv "Unknown work center.") t
      | some wc =>
        withOrm (ops.parseTimestamp p.timestamp) t fun ts t =>
          withOrm (ops.findWorkorder wc ts) t fun firstWo t =>
            match firstWo with
            | some wo => idsViaMonthly ops p wc ts (some wo) t
            | none =>
              withOrm (ops.findMoForDatetime wc ts) t fun prod0 t =>
                match prod0 with
                | some prod =>
                  withOrm (ops.firstWorkorderOf prod) t fun wo4 t =>
                    match wo4 with
                    | some wo => idsViaMonthly ops p wc ts (some wo) t
                    | none =>
                      withOrm (ops.createWorkorder prod wc) t fun wo5 t =>
                        idsViaMonthly ops p wc ts (some wo5) t
                | none => idsViaMonthly ops p wc ts none t

/-- Embedding of the whole route handler, `except Exception` included: an
exception from any ORM call is caught, the transaction is rolled back, and a
JSON error envelope is returned. -/
def ids_workcenter_update {δ : Type} (ops : IdsOps δ) (p : IdsPayload)
    (xIdsToken : Option String) (authorization : String) (t : Txn δ) :
    Txn δ × IdsResponse :=
  match idsBody ops p xIdsToken authorization t with
  | EStateM.Result.ok r t1 => (t1, r)
  | EStateM.Result.error e t1 => (t1.rollback, IdsResponse.errEnv e)

/-- The transaction state carried by an outcome, whether it succeeded or
raised. -/
def resState {δ α : Type} : EStateM.Result String (Txn δ) α → Txn δ
  | EStateM.Result.ok _ s => s
  | EStateM.Result.error _ s => s

theorem withOrm_committed {δ α β : Type} (c : OrmCall δ α) (t : Txn δ)
    (k : α → Txn δ → EStateM.Result String (Txn δ) β)
    (hk : ∀ a d1, (resState (k a ⟨t.committed, d1⟩)).committed = t.committed) :
    (resState (withOrm c t k)).committed = t.committed := by
  unfold withOrm
  cases c t.current with
  | error e => rfl
  | ok ad =>
    obtain ⟨a, d1⟩ := ad
    exact hk a d1

theorem idsAfterLookup_committed {δ : Type} (ops : IdsOps δ) (p : IdsPayload)
    (wo2 : Option ℕ) (t : Txn δ) :
    (resState (idsAfterLookup ops p wo2 t)).committed = t.committed := by
  unfold idsAfterLookup
  cases wo2 with
  | none => rfl
  | some wo =>
    apply withOrm_committed
    intro docket d1
    apply withOrm_committed
    intro prod2 d2
    cases prod2 with
    | none => rfl
    | some prod =>
      apply withOrm_committed
      intro monthly d3
      rfl

theorem idsViaMonthly_committed {δ : Type} (ops : IdsOps δ) (p : IdsPayload)
    (wc : ℕ) (ts : ℤ) (wo1 : Option ℕ) (t : Txn δ) :
    (resState (idsViaMonthly ops p wc ts wo1 t)).committed = t.committed := by
  unfold idsViaMonthly
  cases wo1 with
  | some wo => exact idsAfterLookup_committed ops p (some wo) t
  | none =>
    apply withOrm_committed
    intro monthly1 d1
    cases monthly1 with
    | none => rfl
    | some monthly =>
      apply withOrm_committed
      intro prod1 d2
      cases prod1 with
      | none => exact idsAfterLookup_committed ops p none _
      | some prod =>
        apply withOrm_committed
        intro wo3 d3
        exact idsAfterLookup_committed ops p wo3 _

theorem idsBody_committed {δ : Type} (ops : IdsOps δ) (p : IdsPayload)
    (x : Option String) (auth : String) (t : Txn δ) :
    (resState (idsBody ops p x auth t)).committed = t.committed := by
  unfold idsBody
  cases check_token ops.tokenParam x auth with
  | some r => rfl
  | none =>
    apply withOrm_committed
    intro wc1 d1
    cases wc1 with
    | none => rfl
    | some wc =>
      apply withOrm_committed
      intro ts d2
      apply withOrm_committed
      intro firstWo d3
      cases firstWo with
      | some wo => exact idsViaMonthly_committed ops p wc ts (some wo) _
      | none =>
        apply withOrm_committed
        intro prod0 d4
        cases prod0 with
        | none => exact idsViaMonthly_committed ops p wc ts none _
        | some prod =>
          apply withOrm_committed
          intro wo4 d5
          cases wo4 with
          | some wo => exact idsViaMonthly_committed ops p wc ts (some wo) _
          | none =>
            apply withOrm_committed
            intro wo5 d6
            exact idsViaMonthly_committed ops p wc ts (some wo5) _

/-- C6: no exception escapes the webhook handler: any ORM exception inside the
`try:` block yields a `{status: error, message}` JSON envelope with the
transaction rolled back to its last committed state; a normally returned body
is passed through unchanged; and a fully successful run answers
`{status: ok}` with the work-order, production, monthly-order and docket
ids. -/
theorem ids_workcenter_update_envelope :
    ∀ (δ : Type) (ops : IdsOps δ) (p : IdsPayload) (x : Option String)
      (auth : String) (t : Txn δ),
    (∀ e tmid, idsBody ops p x auth t = EStateM.Result.error e tmid →
      ids_workcenter_update ops p x auth t =
        (⟨t.committed, t.committed⟩, IdsResponse.errEnv e)) ∧
    (∀ r t1, idsBody ops p x auth t = EStateM.Result.ok r t1 →
      ids_workcenter_update ops p x auth t = (t1, r)) ∧
    (∀ (wc : ℕ) (ts : ℤ) (wo : ℕ) (docket : Option ℕ) (prod : ℕ)
       (monthly : Option ℕ) (d1 d2 d3 d4 d5 d6 : δ),
      check_token ops.tokenParam x auth = none →
      ops.resolveWorkcenter p t.current = Except.ok (some wc, d1) →
      ops.parseTimestamp p.timestamp d1 = Except.ok (ts, d2) →
      ops.findWorkorder wc ts d2 = Except.ok (some wo, d3) →
      ops.registerIdsPayload wo p d3 = Except.ok (docket, d4) →
      ops.productionOf wo d4 = Except.ok (some prod, d5) →
      ops.monthlyOf prod d5 = Except.ok (monthly, d6) →
      ids_workcenter_update ops p x auth t =
        (⟨t.committed, d6⟩, IdsResponse.okEnv wo (some prod) monthly docket)) := by
  intro δ ops p x auth t
  refine ⟨?_, ?_, ?_⟩
  · intro e tmid h
    have hc := idsBody_committed ops p x auth t
    rw [h] at hc
    simp only [resState] at hc
    unfold ids_workcenter_update
    rw [h]
    unfold Txn.rollback
    dsimp only
    rw [hc]
  · intro r t1 h
    unfold ids_workcenter_update
    rw [h]
  · intro wc ts wo docket prod monthly d1 d2 d3 d4 d5 d6 h0 h1 h2 h3 h4 h5 h6
    simp only [ids_workcenter_update, idsBody, idsViaMonthly, idsAfterLookup,
      withOrm, h0, h1, h2, h3, h4, h5, h6]

/-- Concrete ORM oracle over a counter datastore, used to exercise the
handler end to end. -/
def sampleIdsOps : IdsOps ℕ where
  tokenParam := none
  resolveWorkcenter := fun _ d => Except.ok (some 1, d + 1)
  parseTimestamp := fun _ d => Except.ok (0, d)
  findWorkorder := fun _ _ d => Except.ok (some 5, d)
  findMoForDatetime := fun _ _ d => Except.ok (none, d)
  firstWorkorderOf := fun _ d => Except.ok (none, d)
  createWorkorder := fun _ _ d => Except.ok (99, d)
  searchMonthly := fun _ _ d => Except.ok (none, d)
  firstProductionOf := fun _ d => Except.ok (none, d)
  registerIdsPayload := fun _ _ d => Except.ok (some 9, d + 1)
  productionOf := fun _ d => Except.ok (some 7, d)
  monthlyOf := fun _ d => Except.ok (some 3, d)

theorem ids_workcenter_update_envelope_witness :
    ids_workcenter_update sampleIdsOps ⟨some "WC-1", some "2024-01-01 08:00:00"⟩
        none "" ⟨0, 0⟩ =
      (⟨0, 2⟩, IdsResponse.okEnv 5 (some 7) (some 3) (some 9)) := by
  have h := (ids_workcenter_update_envelope ℕ sampleIdsOps
    ⟨some "WC-1", some "2024-01-01 08:00:00"⟩ none "" ⟨0, 0⟩).2.2
    1 0 5 (some 9) 7 (some 3) 1 1 1 2 2 2 rfl rfl rfl rfl rfl rfl rfl
  exact h

/-- C9: with the `gear_on_rent.ids_token` parameter unset or empty, the token
check accepts every request; with a non-empty token configured, a request
whose extracted header token (X-IDS-Token, else a Bearer/Token Authorization
header) is missing or different is answered 401, and the handler returns that
401 before touching the transaction. -/
theorem check_token_spec :
    (∀ (x : Option String) (auth : String), check_token none x auth = none) ∧
    (∀ (x : Option String) (auth : String), check_token (some "") x auth = none) ∧
    (∀ (tp : String) (x : Option String) (auth : String), tp ≠ "" →
      extractHeaderToken x auth ≠ tp →
      check_token (some tp) x auth = some response401 ∧ response401.status = 401) ∧
    (∀ (δ : Type) (ops : IdsOps δ) (p : IdsPayload) (x : Option String)
       (auth : String) (t : Txn δ) (r : HttpResponse),
      check_token ops.tokenParam x auth = some r →
      ids_workcenter_update ops p x auth t = (t, IdsResponse.http r)) := by
  refine ⟨fun x auth => rfl, ?_, ?_, ?_⟩
  · intro x auth
    unfold check_token
    dsimp only
    rw [if_pos rfl]
  · intro tp x auth htp hne
    unfold check_token
    dsimp only
    rw [if_neg htp, if_neg]
    · exact ⟨rfl, rfl⟩
    · rintro ⟨-, -, heq⟩
      exact hne heq
  · intro δ ops p x auth t r h
    unfold ids_workcenter_update idsBody
    rw [h]

theorem check_token_spec_witness :
    check_token (some "secret") (some "wrong") "" = some response401 ∧
      response401.status = 401 := by
  apply check_token_spec.2.2.1 "secret" (some "wrong") ""
  · intro h
    exact absurd h (by decide)
  · intro h
    rw [show extractHeaderToken (some "wrong") "" = "wrong" from rfl] at h
    exact absurd h (by decide)

/-! ## Randomized batch generator: `GearRmcDocket._generate_batches` (volumes)

Source: `gear_on_rent/models/rmc_docket.py`, lines 354-391.  The per-batch
random draws `random.uniform(-tol_pct, tol_pct)` are an oracle `u` indexed by
the 1-based batch number; the guard of the enclosing loop ensures
`total_qty > 0` and `capacity > 0` before this code runs. -/

/-- `volumes[-1] = v` (`volumes` is non-empty whenever the code reaches the
assignment). -/
def setLastTo (l : List ℚ) (v : ℚ) : List ℚ := l.dropLast ++ [v]

/-- The batch-volume computation of `_generate_batches` for one docket. -/
def generateBatchVolumes (totalQty capacity tol : ℚ) (u : ℕ → ℚ) : List ℚ :=
  let numBatches := (⌈totalQty / capacity⌉).toNat
  let volumes := (List.range numBatches).map (fun i =>
    let idx := i + 1
    if idx < numBatches then
      let factor := if 0 < tol then 1 + u idx else 1
      max (capacity * factor) 0
    else 0)
  let volumes2 :=
    if 1 < volumes.length then
      setLastTo volumes (max 0 (totalQty - volumes.dropLast.sum))
    else setLastTo volumes totalQty
  let total := volumes2.sum
  if total ≠ 0 ∧ total ≠ totalQty then
    volumes2.map (fun v => v * (totalQty / total))
  else volumes2

theorem sum_map_mul (l : List ℚ) (c : ℚ) :
    (l.map (fun v => v * c)).sum = l.sum * c := by
  induction l with
  | nil => simp
  | cons a l ih =>
    simp only [List.map_cons, List.sum_cons, ih]
    ring

/-- C10: for every positive ordered quantity and capacity, and every outcome
of the random variance factors, the generated batch volumes number exactly
`ceil(quantity_ordered / current_capacity)`, are all non-negative, and sum
exactly to the ordered quantity. -/
theorem generateBatchVolumes_spec :
    ∀ (totalQty capacity tol : ℚ) (u : ℕ → ℚ), 0 < totalQty → 0 < capacity →
    (generateBatchVolumes totalQty capacity tol u).length =
      (⌈totalQty / capacity⌉).toNat ∧
    (∀ v ∈ generateBatchVolumes totalQty capacity tol u, 0 ≤ v) ∧
    (generateBatchVolumes totalQty capacity tol u).sum = totalQty := by
  intro totalQty capacity tol u hT hC
  set numBatches := (⌈totalQty / capacity⌉).toNat with hnum_def
  have hnum_pos : 0 < numBatches := by
    have hq : 0 < totalQty / capacity := div_pos hT hC
    have : 0 < ⌈totalQty / capacity⌉ := Int.ceil_pos.mpr hq
    omega
  set volumes := (List.range numBatches).map (fun i =>
    let idx := i + 1
    if idx < numBatches then
      let factor := if 0 < tol then 1 + u idx else 1
      max (capacity * factor) 0
    else 0) with hvol_def
  have hlen0 : volumes.length = numBatches := by
    rw [hvol_def, List.length_map, List.length_range]
  have hnn0 : ∀ v ∈ volumes, 0 ≤ v := by
    intro v hv
    rw [hvol_def, List.mem_map] at hv
    obtain ⟨i, _, hi⟩ := hv
    rw [← hi]
    dsimp only
    split_ifs <;> first
      | exact le_max_right _ _
      | exact le_refl (0 : ℚ)
  set volumes2 :=
    (if 1 < volumes.length then
      setLastTo volumes (max 0 (totalQty - volumes.dropLast.sum))
    else setLastTo volumes totalQty) with hvol2_def
  have hnn_drop : 0 ≤ volumes.dropLast.sum := by
    apply List.sum_nonneg
    intro v hv
    exact hnn0 v (List.dropLast_subset volumes hv)
  have hlen2 : volumes2.length = numBatches := by
    rw [hvol2_def]
    split_ifs with hgt
    · unfold setLastTo
      rw [List.length_append, List.length_dropLast, hlen0]
      simp only [List.length_singleton]
      omega
    · have h1 : volumes.length = 1 := by omega
      unfold setLastTo
      rw [List.length_append, List.length_dropLast, h1]
      simp only [List.length_singleton]
      omega
  have hnn2 : ∀ v ∈ volumes2, 0 ≤ v := by
    intro v hv
    rw [hvol2_def] at hv
    split_ifs at hv
    · unfold setLastTo at hv
      rcases List.mem_append.mp hv with h | h
      · exact hnn0 v (List.dropLast_subset volumes h)
      · rw [List.mem_singleton] at h
        rw [h]
        exact le_max_left 0 _
    · unfold setLastTo at hv
      rcases List.mem_append.mp hv with h | h
      · exact hnn0 v (List.dropLast_subset volumes h)
      · rw [List.mem_singleton] at h
        rw [h]
        exact le_of_lt hT
  have hsum2 : 0 < volumes2.sum := by
    rw [hvol2_def]
    split_ifs with hgt
    · unfold setLastTo
      rw [List.sum_append, List.sum_singleton]
      rcases le_or_lt totalQty volumes.dropLast.sum with hle | hlt
      · have hmax : max 0 (totalQty - volumes.dropLast.sum) = 0 :=
          max_eq_left (by linarith)
        rw [hmax]
        linarith
      · have hmax : max 0 (totalQty - volumes.dropLast.sum) =
            totalQty - volumes.dropLast.sum := max_eq_right (by linarith)
        rw [hmax]
        linarith
    · unfold setLastTo
      rw [List.sum_append, List.sum_singleton]
      linarith
  have hfinal : generateBatchVolumes totalQty capacity tol u =
      (if volumes2.sum ≠ 0 ∧ volumes2.sum ≠ totalQty then
        volumes2.map (fun v => v * (totalQty / volumes2.sum))
      else volumes2) := by
    rw [generateBatchVolumes, ← hnum_def, ← hvol_def, ← hvol2_def]
  rw [hfinal]
  split_ifs with hcond
  · obtain ⟨hne0, _⟩ := hcond
    refine ⟨?_, ?_, ?_⟩
    · rw [List.length_map, hlen2]
    · intro v hv
      rw [List.mem_map] at hv
      obtain ⟨w, hw, hweq⟩ := hv
      rw [← hweq]
      exact mul_nonneg (hnn2 w hw) (div_nonneg (le_of_lt hT) (le_of_lt hsum2))
    · rw [sum_map_mul]
      field_simp
  · push_neg at hcond
    refine ⟨hlen2, hnn2, ?_⟩
    by_cases hz : volumes2.sum = 0
    · linarith
    · exact hcond hz

theorem generateBatchVolumes_spec_witness :
    (generateBatchVolumes 10 4 0 (fun _ => 0)).length = (⌈(10 : ℚ) / 4⌉).toNat ∧
    (∀ v ∈ generateBatchVolumes 10 4 0 (fun _ => 0), 0 ≤ v) ∧
    (generateBatchVolumes 10 4 0 (fun _ => 0)).sum = 10 :=
  generateBatchVolumes_spec 10 4 0 (fun _ => 0) (by norm_num) (by norm_num)

end GearSpec
